import Mathlib

/-! # jsNet: the numeric kernels of `NetMath.cpp`

A shallow embedding of `src/dev/cpp/NetMath.cpp` (with the data model of
`src/dev/cpp/jsNet.h`) and proofs of its documented properties.

Conventions of the embedding

* A C++ `double` (and the `float` hyper-parameters, which are promoted to
  `double` before use) is an element of a linearly ordered field `α`.  The
  definitions are generic in `α`, so they evaluate on `ℚ`; the theorems are
  stated over `ℝ`.
* The update rules and the cost functions are transcribed with exact
  arithmetic: their theorems state which expression the code evaluates and
  which branch it takes.  The kernels whose documented properties depend on
  the rounding of the arithmetic, `softmax` and `sigmoidRounded`, take the
  rounding `fl` of a `double` operation as an argument: every `+`, `-`, `*`
  and `/` of the source is the exact operation followed by `fl`.
  `fl = roundDouble` rounds to the nearest binary64 number (significand of 53
  bits, ties to even, exponent not bounded); `fl = id` is exact arithmetic.
* The C math library functions `exp`, `log` and `sqrt` are arguments of the
  kernels that call them; the theorems pass `Real.exp`, `Real.log` and
  `Real.sqrt`, or the rounded `fun y => roundDouble (Real.exp y)`.  `sqrt` of
  a negative number is NaN, which `sqrtChecked` reports as `none`.
  `pow(x, 2)` is `x ^ 2`, `pow(b, n)` with an `int` exponent is the integer
  power of the field, `fmax`/`fmin` are `max`/`min`.
* A C++ `int` is an `Int`; the one `int` expression that can leave the range
  of 32 bits, `iterations + 1` in `adam`, is wrapped by `wrapInt32`.
* A `Neuron*` argument that is mutated is passed and returned explicitly: an
  update rule returns the new parameter value together with the new neuron.
* Indexing a `std::vector` out of range is undefined behaviour in C++; the
  embedding returns `none` there, and `some` wherever the source is defined.
-/

set_option autoImplicit false
set_option linter.unusedVariables false
set_option linter.unusedSectionVars false

namespace JsNet

/-! ## Data model (`jsNet.h`) -/

/-- The hyper-parameters of `class Network` that the kernels of `NetMath.cpp` read. -/
structure Network (α : Type) where
  iterations : Int
  learningRate : α
  momentum : α
  rmsDecay : α
  rho : α
  deriving Repr, DecidableEq

/-- The optimizer state of `class Neuron` (`jsNet.h`, lines 261-280). -/
structure Neuron (α : Type) where
  weightGain : List α
  weightsCache : List α
  adadeltaCache : List α
  lreluSlope : α
  rreluSlope : α
  derivative : α
  eluAlpha : α
  biasGain : α
  adadeltaBiasCache : α
  biasCache : α
  m : α
  v : α
  dropped : Bool
  deriving Repr, DecidableEq

/-- Modelled from the spec: `Network::getInstance` is declared in `jsNet.h` but its body is
not among the sources.  The registry `static std::vector<Network*> netInstances` is a list and
`getInstance(i)` is the instance stored at index `i`; an index outside the registry has no
instance. -/
def Network.getInstance {α : Type} (netInstances : List (Network α)) (i : Int) :
    Option (Network α) :=
  if i < 0 then none else netInstances[i.toNat]?

/-- Reading `xs[i]` for an `int` index `i`; `none` outside the vector. -/
def vecGet {α : Type} (xs : List α) (i : Int) : Option α :=
  if i < 0 then none else xs[i.toNat]?

/-- Assigning `xs[i] = x` for an `int` index `i`; `none` outside the vector. -/
def vecSet {α : Type} (xs : List α) (i : Int) (x : α) : Option (List α) :=
  if i < 0 ∨ xs.length ≤ i.toNat then none else some (xs.set i.toNat x)

/-- The value a 32-bit `int` holds after an addition whose exact result is `n`: `n` itself
inside `[-2^31, 2^31)`, wrapped around by multiples of `2^32` outside it (signed overflow is
undefined behaviour in C++; two's-complement targets wrap). -/
def wrapInt32 (n : Int) : Int :=
  (n + 2147483648) % 4294967296 - 2147483648

/-! ## Double arithmetic -/

/-- The integer nearest to `r`; a tie goes to the even one. -/
def roundNE {α : Type} [LinearOrderedField α] [FloorRing α] (r : α) : Int :=
  let f := ⌊r⌋
  if r - f < 1 / 2 then f
  else if 1 / 2 < r - f then f + 1
  else if f % 2 = 0 then f else f + 1

/-- Rounding to the nearest binary64 number: the significand is rounded to 53 bits, ties to
even.  The exponent is not bounded: overflow to infinity, underflow and NaN are not modelled,
so the function is the rounding of a `double` operation wherever the exact result is zero or
has a magnitude in the normal range. -/
def roundDouble {α : Type} [LinearOrderedField α] [FloorRing α] (x : α) : α :=
  if x = 0 then 0
  else
    let e := Int.log 2 |x|
    (roundNE (x / 2 ^ (e - 52)) : α) * 2 ^ (e - 52)

namespace NetMath

variable {α : Type} [LinearOrderedField α]

/-! ## Activation functions -/

/-- Function `NetMath::sigmoid` (lines 2-6). -/
def sigmoid (exp : α → α) (value : α) (prime : Bool) (neuron : Neuron α) : α :=
  let val := 1 / (1 + exp (-value))
  if prime then val * (1 - val)
  else val

/-- Function `NetMath::sigmoid` (lines 2-6) with the rounding of the double arithmetic made
explicit: every `+`, `-`, `*` and `/` of the source is the exact operation followed by `fl`,
and `exp` is the library function, whose result is a double.  With `fl = id` this is
`sigmoid`. -/
def sigmoidRounded (fl : α → α) (exp : α → α) (value : α) (prime : Bool)
    (neuron : Neuron α) : α :=
  let val := fl (1 / fl (1 + exp (-value)))
  if prime then fl (val * fl (1 - val))
  else val

/-! ## Cost functions -/

/-- The loop of `NetMath::meansquarederror` (lines 12-14): `error` after visiting the remaining
entries of `calculated`; `none` when `desired` is too short to be indexed. -/
def meansquarederrorLoop : List α → List α → α → Option α
  | [], _, error => some error
  | _ :: _, [], _ => none
  | c :: calculated, d :: desired, error =>
    meansquarederrorLoop calculated desired (error + (c - d) ^ 2)

/-- Function `NetMath::meansquarederror` (lines 9-17). -/
def meansquarederror (calculated desired : List α) : Option α := do
  let error ← meansquarederrorLoop calculated desired 0
  pure (error / (calculated.length : α))

/-- The loop of `NetMath::crossentropy` (lines 22-24): `error` after visiting the remaining
entries of `target`; `none` when `output` is too short to be indexed. -/
def crossentropyLoop (log : α → α) : List α → List α → α → Option α
  | [], _, error => some error
  | _ :: _, [], _ => none
  | t :: target, o :: output, error =>
    crossentropyLoop log target output
      (error - (t * log (o + 1e-15) + ((1 - t) * log (1 + 1e-15 - o))))

/-- Function `NetMath::crossentropy` (lines 19-27). -/
def crossentropy (log : α → α) (target output : List α) : Option α :=
  crossentropyLoop log target output 0

/-! ## Weight update functions -/

/-- Function `NetMath::vanillaupdatefn` (lines 30-33). -/
def vanillaupdatefn (netInstances : List (Network α)) (netInstance : Int)
    (value deltaValue : α) : Option α := do
  let net ← Network.getInstance netInstances netInstance
  pure (value + net.learningRate * deltaValue)

/-- Function `NetMath::gain` (lines 35-55). -/
def gain (netInstances : List (Network α)) (netInstance : Int) (value deltaValue : α)
    (neuron : Neuron α) (weightIndex : Int) : Option (α × Neuron α) := do
  let net ← Network.getInstance netInstances netInstance
  let g ← if weightIndex < 0 then pure neuron.biasGain
          else vecGet neuron.weightGain weightIndex
  let newVal := value + net.learningRate * deltaValue * g
  if (newVal ≤ 0 ∧ value > 0) ∨ (newVal ≥ 0 ∧ value < 0) then
    if weightIndex > -1 then do
      let w ← vecGet neuron.weightGain weightIndex
      let ws ← vecSet neuron.weightGain weightIndex (max (w * 0.95) 0.5)
      pure (newVal, { neuron with weightGain := ws })
    else
      pure (newVal, { neuron with biasGain := max (neuron.biasGain * 0.95) 0.5 })
  else
    if weightIndex > -1 then do
      let w ← vecGet neuron.weightGain weightIndex
      let ws ← vecSet neuron.weightGain weightIndex (min (w + 0.05) 5)
      pure (newVal, { neuron with weightGain := ws })
    else
      pure (newVal, { neuron with biasGain := min (neuron.biasGain + 0.05) 5 })

/-- Function `NetMath::adagrad` (lines 57-68). -/
def adagrad (sqrt : α → α) (netInstances : List (Network α)) (netInstance : Int)
    (value deltaValue : α) (neuron : Neuron α) (weightIndex : Int) :
    Option (α × Neuron α) := do
  let neuron ←
    if weightIndex > -1 then do
      let c ← vecGet neuron.weightsCache weightIndex
      let cs ← vecSet neuron.weightsCache weightIndex (c + deltaValue ^ 2)
      pure { neuron with weightsCache := cs }
    else
      pure { neuron with biasCache := neuron.biasCache + deltaValue ^ 2 }
  let net ← Network.getInstance netInstances netInstance
  let cache ← if weightIndex > -1 then vecGet neuron.weightsCache weightIndex
              else pure neuron.biasCache
  pure (value + net.learningRate * deltaValue / (1e-6 + sqrt cache), neuron)

/-- Function `NetMath::rmsprop` (lines 70-82). -/
def rmsprop (sqrt : α → α) (netInstances : List (Network α)) (netInstance : Int)
    (value deltaValue : α) (neuron : Neuron α) (weightIndex : Int) :
    Option (α × Neuron α) := do
  let net ← Network.getInstance netInstances netInstance
  let neuron ←
    if weightIndex > -1 then do
      let c ← vecGet neuron.weightsCache weightIndex
      let cs ← vecSet neuron.weightsCache weightIndex
        (net.rmsDecay * c + (1 - net.rmsDecay) * deltaValue ^ 2)
      pure { neuron with weightsCache := cs }
    else
      pure { neuron with
        biasCache := net.rmsDecay * neuron.biasCache + (1 - net.rmsDecay) * deltaValue ^ 2 }
  let cache ← if weightIndex > -1 then vecGet neuron.weightsCache weightIndex
              else pure neuron.biasCache
  pure (value + net.learningRate * deltaValue / (1e-6 + sqrt cache), neuron)

/-- Function `NetMath::adam` (lines 84-95).  The moments are the neuron's scalars `m` and `v`;
`weightIndex` is not read.  The exponent `net->iterations + 1` is a 32-bit `int` sum. -/
def adam (sqrt : α → α) (netInstances : List (Network α)) (netInstance : Int)
    (value deltaValue : α) (neuron : Neuron α) (weightIndex : Int) :
    Option (α × Neuron α) := do
  let net ← Network.getInstance netInstances netInstance
  let neuron := { neuron with m := 0.9 * neuron.m + (1 - 0.9) * deltaValue }
  let mt := neuron.m / (1 - (0.9 : α) ^ wrapInt32 (net.iterations + 1))
  let neuron := { neuron with v := 0.999 * neuron.v + (1 - 0.999) * deltaValue ^ 2 }
  let vt := neuron.v / (1 - (0.999 : α) ^ wrapInt32 (net.iterations + 1))
  pure (value + net.learningRate * mt / (sqrt vt + 1e-6), neuron)

/-- Function `NetMath::adadelta` (lines 97-112). -/
def adadelta (sqrt : α → α) (netInstances : List (Network α)) (netInstance : Int)
    (value deltaValue : α) (neuron : Neuron α) (weightIndex : Int) :
    Option (α × Neuron α) := do
  let net ← Network.getInstance netInstances netInstance
  let rho := net.rho
  if weightIndex > -1 then do
    let c ← vecGet neuron.weightsCache weightIndex
    let cs ← vecSet neuron.weightsCache weightIndex (rho * c + (1 - rho) * deltaValue ^ 2)
    let neuron := { neuron with weightsCache := cs }
    let a ← vecGet neuron.adadeltaCache weightIndex
    let c ← vecGet neuron.weightsCache weightIndex
    let newVal := value + sqrt ((a + 1e-6) / (c + 1e-6)) * deltaValue
    let a ← vecGet neuron.adadeltaCache weightIndex
    let as ← vecSet neuron.adadeltaCache weightIndex (rho * a + (1 - rho) * deltaValue ^ 2)
    let neuron := { neuron with adadeltaCache := as }
    pure (newVal, neuron)
  else
    let neuron := { neuron with
      biasCache := rho * neuron.biasCache + (1 - rho) * deltaValue ^ 2 }
    let newVal :=
      value + sqrt ((neuron.adadeltaBiasCache + 1e-6) / (neuron.biasCache + 1e-6)) * deltaValue
    let neuron := { neuron with
      adadeltaBiasCache := rho * neuron.adadeltaBiasCache + (1 - rho) * deltaValue ^ 2 }
    pure (newVal, neuron)

/-! ## Other -/

/-- The first loop of `NetMath::softmax` (lines 116-120): `total`, accumulated from `0.0` over
the entries from left to right.  `fl` is the rounding of the double arithmetic, applied to the
exact result of every `+=`; `fl = id` is exact arithmetic. -/
def softmaxTotal (fl : α → α) (values : List α) : α :=
  values.foldl (fun total x => fl (total + x)) 0

/-- The second loop of `NetMath::softmax` (lines 122-126) over the entries of `values`, for
a given `total`; `fl` rounds the exact result of every `/=`.  Next to the new entries it
returns how many times the division of line 124 was executed. -/
def softmaxLoop (fl : α → α) (total : α) : List α → List α × Nat
  | [] => ([], 0)
  | x :: rest =>
    let r := softmaxLoop fl total rest
    if total ≠ 0 then (fl (x / total) :: r.1, r.2 + 1)
    else (x :: r.1, r.2)

/-- Function `NetMath::softmax` (lines 115-129), instrumented: the returned vector and the
number of divisions executed. -/
def softmaxTraced (fl : α → α) (values : List α) : List α × Nat :=
  softmaxLoop fl (softmaxTotal fl values) values

/-- Function `NetMath::softmax` (lines 115-129): the returned vector. -/
def softmax (fl : α → α) (values : List α) : List α :=
  (softmaxTraced fl values).1

/-! ## Observing the optimizer state -/

/-- The gain slot that `weightIndex` selects (the ternary of line 38): `biasGain` when
`weightIndex < 0`, `weightGain[weightIndex]` otherwise. -/
def gainSlot (neuron : Neuron α) (weightIndex : Int) : Option α :=
  if weightIndex < 0 then some neuron.biasGain else vecGet neuron.weightGain weightIndex

/-- The cache slot that `weightIndex` selects (the ternary of lines 66-67):
`weightsCache[weightIndex]` when `weightIndex > -1`, `biasCache` otherwise. -/
def cacheSlot (neuron : Neuron α) (weightIndex : Int) : Option α :=
  if weightIndex > -1 then vecGet neuron.weightsCache weightIndex else some neuron.biasCache

/-- The auxiliary Adadelta slot that `weightIndex` selects: `adadeltaCache[weightIndex]` when
`weightIndex > -1`, `adadeltaBiasCache` otherwise. -/
def adadeltaSlot (neuron : Neuron α) (weightIndex : Int) : Option α :=
  if weightIndex > -1 then vecGet neuron.adadeltaCache weightIndex
  else some neuron.adadeltaBiasCache

/-- Every gain slot of the neuron lies between the floor `0.5` and the ceiling `5.0`. -/
def GainsBounded (neuron : Neuron α) : Prop :=
  (0.5 ≤ neuron.biasGain ∧ neuron.biasGain ≤ 5) ∧ ∀ g ∈ neuron.weightGain, 0.5 ≤ g ∧ g ≤ 5

/-- Every cache entry of `b` (`biasCache` and each `weightsCache[i]`) is at least the entry of
`a` in the same place. -/
def CachesLE (a b : Neuron α) : Prop :=
  a.biasCache ≤ b.biasCache
    ∧ ∀ (i : Nat) (x : α), a.weightsCache[i]? = some x →
        ∃ y, b.weightsCache[i]? = some y ∧ x ≤ y

/-- The arguments of one call of an update rule on a neuron. -/
structure UpdateCall (α : Type) where
  netInstance : Int
  value : α
  deltaValue : α
  weightIndex : Int

/-- A finite sequence of calls of one update rule on the same neuron, each call acting on the
neuron left by the previous one. -/
def runUpdates (update : Int → α → α → Neuron α → Int → Option (α × Neuron α)) :
    Neuron α → List (UpdateCall α) → Option (Neuron α)
  | neuron, [] => some neuron
  | neuron, c :: rest => do
    let r ← update c.netInstance c.value c.deltaValue neuron c.weightIndex
    runUpdates update r.2 rest

/-! ## Instrumented variants for the later properties -/

/-- Function `NetMath::vanillaupdatefn` (lines 30-33) together with the state it can reach, the
registry of network instances: the body reads `net->learningRate` and holds no assignment, so
the registry is handed back as it came. -/
def vanillaupdatefnState (netInstances : List (Network α)) (netInstance : Int)
    (value deltaValue : α) : Option (α × List (Network α)) := do
  let net ← Network.getInstance netInstances netInstance
  pure (value + net.learningRate * deltaValue, netInstances)

/-- Two vectors have the same length and the same entry at every index other than `i`. -/
def AgreeOff (i : Nat) (xs ys : List α) : Prop :=
  xs.length = ys.length ∧ ∀ j : Nat, j ≠ i → xs[j]? = ys[j]?

/-- The frame of an update call with `weightIndex`.  For a weight (`weightIndex > -1`) the
scalar bias slots are as before and the per-index vectors are as before at every index other
than `weightIndex`; for the bias (`weightIndex < 0`) the per-index vectors are as before. -/
def SlotFrame (weightIndex : Int) (before after : Neuron α) : Prop :=
  (weightIndex > -1 →
      after.biasGain = before.biasGain ∧ after.biasCache = before.biasCache
        ∧ after.adadeltaBiasCache = before.adadeltaBiasCache
        ∧ AgreeOff weightIndex.toNat before.weightGain after.weightGain
        ∧ AgreeOff weightIndex.toNat before.weightsCache after.weightsCache
        ∧ AgreeOff weightIndex.toNat before.adadeltaCache after.adadeltaCache)
    ∧ (weightIndex < 0 →
      after.weightGain = before.weightGain ∧ after.weightsCache = before.weightsCache
        ∧ after.adadeltaCache = before.adadeltaCache)

/-- C's `sqrt` has a value on non-negative arguments only (on a negative argument it returns
NaN): `some (sqrt x)` for `0 ≤ x`, `none` otherwise. -/
def sqrtChecked (sqrt : α → α) (x : α) : Option α :=
  if 0 ≤ x then some (sqrt x) else none

/-- The divisor `1e-6 + sqrt(cache)` of `adagrad` (lines 66-67) and of `rmsprop` (lines 80-81),
for the content `cache` of the selected slot after the update; `none` when `sqrt(cache)` has no
value. -/
def cacheDivisor (sqrt : α → α) (cache : α) : Option α := do
  let s ← sqrtChecked sqrt cache
  pure (1e-6 + s)

/-- The divisor `sqrt(vt) + 1e-6` of `adam` (line 94), for the bias-corrected second moment
`vt`; `none` when `sqrt(vt)` has no value. -/
def momentDivisor (sqrt : α → α) (vt : α) : Option α := do
  let s ← sqrtChecked sqrt vt
  pure (s + 1e-6)

end NetMath

/-! ## Lemmas on vectors -/

section Vec

variable {α : Type}

theorem vecGet_eq_some {xs : List α} {i : Int} {x : α} (h : vecGet xs i = some x) :
    0 ≤ i ∧ i.toNat < xs.length ∧ xs[i.toNat]? = some x := by
  unfold vecGet at h
  split at h
  · cases h
  · rename_i hi
    refine ⟨by omega, ?_, h⟩
    exact (List.getElem?_eq_some_iff.mp h).1

theorem vecSet_of_vecGet {xs : List α} {i : Int} {x : α} (h : vecGet xs i = some x) (y : α) :
    vecSet xs i y = some (xs.set i.toNat y) := by
  obtain ⟨h0, hlt, _⟩ := vecGet_eq_some h
  unfold vecSet
  rw [if_neg]
  omega

theorem vecGet_set_same {xs : List α} {i : Int} {x : α} (h : vecGet xs i = some x) (y : α) :
    vecGet (xs.set i.toNat y) i = some y := by
  obtain ⟨h0, hlt, _⟩ := vecGet_eq_some h
  unfold vecGet
  rw [if_neg (by omega)]
  simp [hlt]

end Vec

/-! ## Rounding -/

section Rounding

variable {α : Type} [LinearOrderedField α] [FloorRing α]

theorem roundNE_eq {r : α} {n : Int} (h1 : (n : α) - 1 / 2 < r) (h2 : r < n + 1 / 2) :
    roundNE r = n := by
  unfold roundNE
  by_cases hr : (n : α) ≤ r
  · have hf : ⌊r⌋ = n := by
      rw [Int.floor_eq_iff]
      exact ⟨hr, by linarith⟩
    simp only [hf]
    rw [if_pos (by linarith)]
  · push_neg at hr
    have hf : ⌊r⌋ = n - 1 := by
      rw [Int.floor_eq_iff]
      push_cast
      exact ⟨by linarith, by linarith⟩
    simp only [hf]
    push_cast
    rw [if_neg (by linarith), if_pos (by linarith)]
    ring

theorem roundNE_intCast (n : Int) : roundNE (n : α) = n :=
  roundNE_eq (by linarith) (by linarith)

theorem roundNE_tie_even {n : Int} (hn : n % 2 = 0) : roundNE ((n : α) + 1 / 2) = n := by
  unfold roundNE
  have hf : ⌊(n : α) + 1 / 2⌋ = n := by
    rw [Int.floor_eq_iff]
    exact ⟨by linarith, by linarith⟩
  simp only [hf]
  rw [if_neg (by simp), if_neg (by simp), if_pos hn]

theorem le_roundNE {r : α} {k : Int} (h : (k : α) ≤ r) : k ≤ roundNE r := by
  have hf : k ≤ ⌊r⌋ := Int.le_floor.mpr h
  unfold roundNE
  simp only []
  split_ifs <;> omega

theorem roundNE_le {r : α} {k : Int} (h : r ≤ (k : α)) : roundNE r ≤ k := by
  have h1 : (⌊r⌋ : α) ≤ r := Int.floor_le r
  have hf : ⌊r⌋ ≤ k := by exact_mod_cast h1.trans h
  unfold roundNE
  simp only []
  by_cases h2 : r - (⌊r⌋ : α) < 1 / 2
  · rw [if_pos h2]; exact hf
  · have hlt : ⌊r⌋ < k := by
      rcases hf.lt_or_eq with h3 | h3
      · exact h3
      · exfalso
        apply h2
        have : r ≤ (⌊r⌋ : α) := by rw [h3]; exact h
        linarith
    rw [if_neg h2]
    split_ifs <;> omega

theorem roundNE_le_add_half (r : α) : (roundNE r : α) ≤ r + 1 / 2 := by
  have h1 : (⌊r⌋ : α) ≤ r := Int.floor_le r
  unfold roundNE
  simp only []
  by_cases h2 : r - (⌊r⌋ : α) < 1 / 2
  · rw [if_pos h2]; linarith
  · rw [if_neg h2]
    push_neg at h2
    split_ifs
    · push_cast; linarith
    · linarith
    · push_cast; linarith

theorem sub_half_le_roundNE (r : α) : r - 1 / 2 ≤ (roundNE r : α) := by
  have h1 : r < (⌊r⌋ : α) + 1 := Int.lt_floor_add_one r
  unfold roundNE
  simp only []
  by_cases h2 : r - (⌊r⌋ : α) < 1 / 2
  · rw [if_pos h2]; linarith
  · rw [if_neg h2]
    by_cases h3 : 1 / 2 < r - (⌊r⌋ : α)
    · rw [if_pos h3]; push_cast; linarith
    · rw [if_neg h3]
      push_neg at h2 h3
      split_ifs
      · linarith
      · push_cast; linarith

theorem two_zpow_split (e : Int) :
    (4503599627370496 : α) * 2 ^ (e - 52) = 2 ^ e
      ∧ (9007199254740992 : α) * 2 ^ (e - 52) = 2 ^ (e + 1)
      ∧ (1 / 2 : α) * 2 ^ (e - 52) = 2 ^ (e - 53) := by
  have h2 : (2 : α) ≠ 0 := two_ne_zero
  have e1 : (2 : α) ^ e = 2 ^ (52 : Int) * 2 ^ (e - 52) := by
    rw [← zpow_add₀ h2]; congr 1; ring
  have e2 : (2 : α) ^ (e + 1) = 2 ^ (53 : Int) * 2 ^ (e - 52) := by
    rw [← zpow_add₀ h2]; congr 1; ring
  have e3 : (2 : α) ^ (e - 53) = 2 ^ (-1 : Int) * 2 ^ (e - 52) := by
    rw [← zpow_add₀ h2]; congr 1; ring
  rw [e1, e2, e3]
  norm_num

theorem roundDouble_zero : roundDouble (0 : α) = 0 := by
  simp [roundDouble]

theorem roundDouble_of_binade {x : α} {e : Int} (h1 : (2 : α) ^ e ≤ |x|)
    (h2 : |x| < (2 : α) ^ (e + 1)) :
    roundDouble x = (roundNE (x / 2 ^ (e - 52)) : α) * 2 ^ (e - 52) := by
  have hpos : (0 : α) < |x| := lt_of_lt_of_le (zpow_pos (by norm_num) e) h1
  have hx : x ≠ 0 := abs_pos.mp hpos
  have hlog : Int.log 2 |x| = e := by
    apply le_antisymm
    · have := (Int.lt_zpow_iff_log_lt (R := α) (b := 2) (by norm_num) hpos).mp
        (by simpa using h2)
      omega
    · exact (Int.zpow_le_iff_le_log (R := α) (b := 2) (by norm_num) hpos).mp (by simpa using h1)
  unfold roundDouble
  rw [if_neg hx]
  simp only [hlog]

theorem roundDouble_eval {x : α} (e n : Int) (h1 : (2 : α) ^ e ≤ |x|)
    (h2 : |x| < (2 : α) ^ (e + 1)) (h3 : (n : α) - 1 / 2 < x / 2 ^ (e - 52))
    (h4 : x / 2 ^ (e - 52) < n + 1 / 2) :
    roundDouble x = (n : α) * 2 ^ (e - 52) := by
  rw [roundDouble_of_binade h1 h2, roundNE_eq h3 h4]

theorem exists_binade {x : α} (hx : 0 < x) :
    ∃ e : Int, (2 : α) ^ e ≤ x ∧ x < (2 : α) ^ (e + 1) := by
  refine ⟨Int.log 2 x, ?_, ?_⟩
  · simpa using Int.zpow_log_le_self (R := α) (b := 2) (by norm_num) hx
  · simpa using Int.lt_zpow_succ_log_self (R := α) (b := 2) (by norm_num) x

/-- Rounding a positive number stays in the closure of its binade and moves it by at most
half a unit in the last place. -/
theorem roundDouble_bounds {x : α} {e : Int} (h1 : (2 : α) ^ e ≤ x)
    (h2 : x < (2 : α) ^ (e + 1)) :
    (2 : α) ^ e ≤ roundDouble x ∧ roundDouble x ≤ 2 ^ (e + 1)
      ∧ roundDouble x ≤ x + 2 ^ (e - 53) ∧ x - 2 ^ (e - 53) ≤ roundDouble x := by
  have hx : 0 < x := lt_of_lt_of_le (zpow_pos (by norm_num) e) h1
  have hu : (0 : α) < 2 ^ (e - 52) := zpow_pos (by norm_num) _
  obtain ⟨s1, s2, s3⟩ := @two_zpow_split α _ _ e
  rw [roundDouble_of_binade (by rwa [abs_of_pos hx]) (by rwa [abs_of_pos hx])]
  have hr1 : ((4503599627370496 : Int) : α) ≤ x / 2 ^ (e - 52) := by
    rw [le_div_iff₀ hu]; push_cast; rw [s1]; exact h1
  have hr2 : x / 2 ^ (e - 52) ≤ ((9007199254740992 : Int) : α) := by
    rw [div_le_iff₀ hu]; push_cast; rw [s2]; exact h2.le
  have hn1 : ((4503599627370496 : Int) : α) ≤ (roundNE (x / 2 ^ (e - 52)) : α) := by
    exact_mod_cast le_roundNE hr1
  have hn2 : (roundNE (x / 2 ^ (e - 52)) : α) ≤ ((9007199254740992 : Int) : α) := by
    exact_mod_cast roundNE_le hr2
  have hn3 := roundNE_le_add_half (x / 2 ^ (e - 52))
  have hn4 := sub_half_le_roundNE (x / 2 ^ (e - 52))
  have hxu : x / 2 ^ (e - 52) * 2 ^ (e - 52) = x := div_mul_cancel₀ x hu.ne'
  refine ⟨?_, ?_, ?_, ?_⟩
  · rw [← s1]; push_cast at hn1; exact mul_le_mul_of_nonneg_right hn1 hu.le
  · rw [← s2]; push_cast at hn2; exact mul_le_mul_of_nonneg_right hn2 hu.le
  · have := mul_le_mul_of_nonneg_right hn3 hu.le
    rw [add_mul, hxu, s3] at this; exact this
  · have := mul_le_mul_of_nonneg_right hn4 hu.le
    rw [sub_mul, hxu, s3] at this; exact this

theorem roundDouble_nonneg {x : α} (hx : 0 ≤ x) : 0 ≤ roundDouble x := by
  rcases hx.lt_or_eq with h | h
  · obtain ⟨e, h1, h2⟩ := exists_binade h
    exact le_trans (zpow_pos (by norm_num) e).le (roundDouble_bounds h1 h2).1
  · rw [← h, roundDouble_zero]

theorem roundDouble_le_zpow {x : α} {k : Int} (h0 : 0 ≤ x) (hx : x ≤ (2 : α) ^ k) :
    roundDouble x ≤ (2 : α) ^ k := by
  rcases h0.lt_or_eq with h | h
  · obtain ⟨e, h1, h2⟩ := exists_binade h
    rcases hx.lt_or_eq with h3 | h3
    · have he : e + 1 ≤ k := by
        by_contra hc
        push_neg at hc
        have hke : k ≤ e := by omega
        have : (2 : α) ^ k ≤ 2 ^ e := zpow_le_zpow_right₀ (by norm_num) hke
        linarith
      exact le_trans (roundDouble_bounds h1 h2).2.1 (zpow_le_zpow_right₀ (by norm_num) he)
    · have hb1 : (2 : α) ^ k ≤ x := h3.ge
      have hb2 : x < (2 : α) ^ (k + 1) := by
        rw [h3]; exact zpow_lt_zpow_right₀ (by norm_num) (by omega)
      have := roundDouble_bounds hb1 hb2
      have hh := this.2.2.1
      have hl := this.1
      -- x is a power of two: rounding is exact
      obtain ⟨s1, _, _⟩ := @two_zpow_split α _ _ k
      have hx' : 0 < x := h
      rw [roundDouble_of_binade (by rwa [abs_of_pos hx']) (by rwa [abs_of_pos hx'])]
      have hu : (0 : α) < 2 ^ (k - 52) := zpow_pos (by norm_num) _
      have hq : x / 2 ^ (k - 52) = ((4503599627370496 : Int) : α) := by
        rw [div_eq_iff hu.ne']; push_cast; rw [s1, h3]
      rw [hq, roundNE_intCast]; push_cast; rw [s1]
  · rw [← h, roundDouble_zero]; exact (zpow_pos (by norm_num) k).le

theorem roundDouble_zpow (k : Int) : roundDouble ((2 : α) ^ k) = 2 ^ k := by
  apply le_antisymm
  · exact roundDouble_le_zpow (zpow_pos (by norm_num) k).le le_rfl
  · exact (roundDouble_bounds le_rfl (zpow_lt_zpow_right₀ (by norm_num) (by omega))).1

theorem one_le_roundDouble {x : α} (hx : 1 ≤ x) : 1 ≤ roundDouble x := by
  obtain ⟨e, h1, h2⟩ := exists_binade (lt_of_lt_of_le one_pos hx)
  have he : 0 ≤ e := by
    by_contra hc
    push_neg at hc
    have : (2 : α) ^ (e + 1) ≤ 2 ^ (0 : Int) := zpow_le_zpow_right₀ (by norm_num) (by omega)
    simp at this
    linarith
  have : (1 : α) ≤ 2 ^ e := by
    have := zpow_le_zpow_right₀ (a := (2 : α)) (by norm_num) he
    simpa using this
  exact le_trans this (roundDouble_bounds h1 h2).1

theorem roundDouble_le_one {x : α} (h0 : 0 ≤ x) (hx : x ≤ 1) : roundDouble x ≤ 1 := by
  have := roundDouble_le_zpow (k := 0) h0 (by simpa using hx)
  simpa using this

/-- Below `2^k` rounding adds at most `2^(k-54)`. -/
theorem roundDouble_le_add {x : α} {k : Int} (h0 : 0 ≤ x) (hx : x < (2 : α) ^ k) :
    roundDouble x ≤ x + 2 ^ (k - 54) := by
  rcases h0.lt_or_eq with h | h
  · obtain ⟨e, h1, h2⟩ := exists_binade h
    have he : e + 1 ≤ k := by
      by_contra hc
      push_neg at hc
      have : (2 : α) ^ k ≤ 2 ^ e := zpow_le_zpow_right₀ (by norm_num) (by omega)
      linarith
    have h3 := (roundDouble_bounds h1 h2).2.2.1
    have : (2 : α) ^ (e - 53) ≤ 2 ^ (k - 54) := zpow_le_zpow_right₀ (by norm_num) (by omega)
    linarith
  · rw [← h, roundDouble_zero]
    have := zpow_pos (a := (2 : α)) (by norm_num) (k - 54)
    linarith


theorem roundNE_tie (f : Int) :
    roundNE ((f : α) + 1 / 2) = if f % 2 = 0 then f else f + 1 := by
  unfold roundNE
  have hf : ⌊(f : α) + 1 / 2⌋ = f := by
    rw [Int.floor_eq_iff]
    exact ⟨by linarith, by linarith⟩
  simp only [hf]
  rw [if_neg (by simp), if_neg (by simp)]

theorem roundNE_neg (r : α) : roundNE (-r) = -roundNE r := by
  have h1 := roundNE_le_add_half r
  have h2 := sub_half_le_roundNE r
  by_cases ha : (roundNE r : α) = r + 1 / 2
  · have hr : r = ((roundNE r - 1 : Int) : α) + 1 / 2 := by push_cast; linarith
    have ht := @roundNE_tie α _ _ (roundNE r - 1)
    rw [← hr] at ht
    have hneg : -r = ((-roundNE r : Int) : α) + 1 / 2 := by push_cast; linarith
    rw [hneg, roundNE_tie]
    split_ifs at ht ⊢ <;> omega
  · by_cases hb : (roundNE r : α) = r - 1 / 2
    · have hr : r = ((roundNE r : Int) : α) + 1 / 2 := by linarith
      have ht := @roundNE_tie α _ _ (roundNE r)
      rw [← hr] at ht
      have hneg : -r = ((-roundNE r - 1 : Int) : α) + 1 / 2 := by push_cast; linarith
      rw [hneg, roundNE_tie]
      split_ifs at ht ⊢ <;> omega
    · have h3 : (roundNE r : α) < r + 1 / 2 := lt_of_le_of_ne h1 ha
      have h4 : r - 1 / 2 < (roundNE r : α) := lt_of_le_of_ne h2 (Ne.symm hb)
      apply roundNE_eq
      · push_cast; linarith
      · push_cast; linarith

theorem roundDouble_neg (x : α) : roundDouble (-x) = -roundDouble x := by
  unfold roundDouble
  by_cases hx : x = 0
  · simp [hx]
  · have hx' : -x ≠ 0 := neg_ne_zero.mpr hx
    rw [if_neg hx, if_neg hx']
    simp only [abs_neg, neg_div, roundNE_neg]
    push_cast
    ring

theorem roundDouble_idem_pos {x : α} (hx : 0 < x) :
    roundDouble (roundDouble x) = roundDouble x := by
  obtain ⟨e, h1, h2⟩ := exists_binade hx
  have hu : (0 : α) < 2 ^ (e - 52) := zpow_pos (by norm_num) _
  obtain ⟨s1, s2, s3⟩ := @two_zpow_split α _ _ e
  have hfl := roundDouble_of_binade (x := x) (e := e) (by rwa [abs_of_pos hx])
    (by rwa [abs_of_pos hx])
  have hb := roundDouble_bounds h1 h2
  rcases hb.2.1.lt_or_eq with hlt | heq
  · have hy : 0 < roundDouble x := lt_of_lt_of_le (zpow_pos (by norm_num) e) hb.1
    rw [roundDouble_of_binade (x := roundDouble x) (e := e) (by rw [abs_of_pos hy]; exact hb.1)
      (by rwa [abs_of_pos hy])]
    have hq : roundDouble x / 2 ^ (e - 52) = (roundNE (x / 2 ^ (e - 52)) : α) := by
      rw [hfl, mul_div_assoc, div_self hu.ne', mul_one]
    rw [hq, roundNE_intCast, ← hfl]
  · rw [heq, roundDouble_zpow]

theorem roundDouble_idem (x : α) : roundDouble (roundDouble x) = roundDouble x := by
  rcases lt_trichotomy x 0 with h | h | h
  · have hn : 0 < -x := neg_pos.mpr h
    have := roundDouble_idem_pos hn
    rw [roundDouble_neg, roundDouble_neg] at this
    exact neg_injective this
  · rw [h, roundDouble_zero, roundDouble_zero]
  · exact roundDouble_idem_pos h

/-- A product that exceeds `1/4` by at most half a unit in the last place rounds to at most
`1/4`. -/
theorem roundDouble_le_quarter {y : α} (h0 : 0 ≤ y) (hy : y ≤ 1 / 4 + 2 ^ (-55 : Int)) :
    roundDouble y ≤ 1 / 4 := by
  have hq : (1 / 4 : α) = 2 ^ (-2 : Int) := by norm_num
  by_cases h : y ≤ 1 / 4
  · rw [hq] at h ⊢
    exact roundDouble_le_zpow h0 h
  · push_neg at h
    have hpos : 0 < y := lt_of_lt_of_le (by norm_num) h.le
    have b1 : (2 : α) ^ (-2 : Int) ≤ y := by rw [← hq]; exact h.le
    have b2 : y < (2 : α) ^ ((-2 : Int) + 1) :=
      lt_of_le_of_lt hy (by norm_num)
    have hE : ((-2 : Int) - 52) = -54 := by norm_num
    have hu : (0 : α) < 2 ^ (-54 : Int) := zpow_pos (by norm_num) _
    have k1 : (4503599627370496 : α) * 2 ^ (-54 : Int) = 1 / 4 := by norm_num
    have k2 : (1 / 2 : α) * 2 ^ (-54 : Int) = 2 ^ (-55 : Int) := by norm_num
    rw [roundDouble_of_binade (by rwa [abs_of_pos hpos]) (by rwa [abs_of_pos hpos]), hE]
    have hr : y / 2 ^ (-54 : Int) ≤ ((4503599627370496 : Int) : α) + 1 / 2 := by
      rw [div_le_iff₀ hu, add_mul]
      push_cast
      rw [k1, k2]
      exact hy
    have hr0 : ((4503599627370496 : Int) : α) - 1 / 2 < y / 2 ^ (-54 : Int) := by
      have : ((4503599627370496 : Int) : α) ≤ y / 2 ^ (-54 : Int) := by
        rw [le_div_iff₀ hu]; push_cast; rw [k1]; exact h.le
      linarith
    have hn : roundNE (y / 2 ^ (-54 : Int)) = 4503599627370496 := by
      rcases hr.lt_or_eq with h1 | h1
      · exact roundNE_eq hr0 h1
      · rw [h1, roundNE_tie]; decide
    rw [hn]
    push_cast
    rw [k1]

theorem roundDouble_one : roundDouble (1 : α) = 1 := by
  simpa using @roundDouble_zpow α _ _ 0

theorem roundDouble_two : roundDouble (2 : α) = 2 := by
  simpa using @roundDouble_zpow α _ _ 1

theorem roundDouble_four : roundDouble (4 : α) = 4 := by
  have h := @roundDouble_zpow α _ _ 2
  have e : (2 : α) ^ (2 : Int) = 4 := by norm_num
  rwa [e] at h

theorem roundDouble_half : roundDouble (1 / 2 : α) = 1 / 2 := by
  have h := @roundDouble_zpow α _ _ (-1)
  have e : (2 : α) ^ (-1 : Int) = 1 / 2 := by norm_num
  rwa [e] at h

theorem roundDouble_quarter : roundDouble (1 / 4 : α) = 1 / 4 := by
  have h := @roundDouble_zpow α _ _ (-2)
  have e : (2 : α) ^ (-2 : Int) = 1 / 4 := by norm_num
  rwa [e] at h

/-- Between `1` and `1 + 2^-53` every number rounds to `1`. -/
theorem roundDouble_one_add {y : α} (h0 : 0 ≤ y) (hy : y < 2 ^ (-53 : Int)) :
    roundDouble (1 + y) = 1 := by
  have h53 : (2 : α) ^ (-53 : Int) < 1 := by norm_num
  have hu : (0 : α) < 2 ^ (-52 : Int) := zpow_pos (by norm_num) _
  have k1 : (4503599627370496 : α) * 2 ^ (-52 : Int) = 1 := by norm_num
  have k2 : (1 / 2 : α) * 2 ^ (-52 : Int) = 2 ^ (-53 : Int) := by norm_num
  have hpos : (0 : α) < 1 + y := by linarith
  have hE : ((0 : Int) - 52) = -52 := by norm_num
  rw [roundDouble_eval 0 4503599627370496
    (by rw [abs_of_pos hpos]; simp; exact h0)
    (by rw [abs_of_pos hpos]; norm_num; linarith)
    (by rw [hE, lt_div_iff₀ hu, sub_mul]; push_cast; rw [k1, k2]; linarith)
    (by rw [hE, div_lt_iff₀ hu, add_mul]; push_cast; rw [k1, k2]; linarith), hE]
  push_cast
  exact k1

/-- Between `1 - 2^-54` and `1` every number rounds to `1`. -/
theorem roundDouble_one_sub {y : α} (h0 : 0 < y) (hy : y < 2 ^ (-54 : Int)) :
    roundDouble (1 - y) = 1 := by
  have h54 : (2 : α) ^ (-54 : Int) < 1 / 2 := by norm_num
  have hy2 : y < 1 / 2 := lt_trans hy h54
  have hu : (0 : α) < 2 ^ (-53 : Int) := zpow_pos (by norm_num) _
  have k1 : (9007199254740992 : α) * 2 ^ (-53 : Int) = 1 := by norm_num
  have k2 : (1 / 2 : α) * 2 ^ (-53 : Int) = 2 ^ (-54 : Int) := by norm_num
  have hpos : (0 : α) < 1 - y := by linarith
  have hE : ((-1 : Int) - 52) = -53 := by norm_num
  have e1 : (2 : α) ^ (-1 : Int) = 1 / 2 := by norm_num
  have e2 : (2 : α) ^ ((-1 : Int) + 1) = 1 := by norm_num
  rw [roundDouble_eval (-1) 9007199254740992
    (by rw [abs_of_pos hpos, e1]; linarith)
    (by rw [abs_of_pos hpos, e2]; linarith)
    (by rw [hE, lt_div_iff₀ hu, sub_mul]; push_cast; rw [k1, k2]; linarith)
    (by rw [hE, div_lt_iff₀ hu, add_mul]; push_cast; rw [k1, k2]; linarith), hE]
  push_cast
  exact k1

end Rounding

namespace NetMath

/-! ## Softmax -/

section Softmax

variable {α : Type} [LinearOrderedField α]

theorem softmaxLoop_zero (fl : α → α) (values : List α) :
    softmaxLoop fl 0 values = (values, 0) := by
  induction values with
  | nil => rfl
  | cons x rest ih => simp [softmaxLoop, ih]

theorem softmaxLoop_ne_zero (fl : α → α) {total : α} (h : total ≠ 0) (values : List α) :
    softmaxLoop fl total values
      = (values.map (fun x => fl (x / total)), values.length) := by
  induction values with
  | nil => rfl
  | cons x rest ih => simp [softmaxLoop, ih, h]

theorem softmaxTraced_of_total_zero (fl : α → α) (v : List α)
    (h : softmaxTotal fl v = 0) : softmaxTraced fl v = (v, 0) := by
  unfold softmaxTraced
  rw [h, softmaxLoop_zero]

theorem softmaxTraced_of_total_ne_zero (fl : α → α) (v : List α)
    (h : softmaxTotal fl v ≠ 0) :
    softmaxTraced fl v = (v.map (fun x => fl (x / softmaxTotal fl v)), v.length) := by
  unfold softmaxTraced
  rw [softmaxLoop_ne_zero fl h]

theorem softmax_eq_of_total_zero (fl : α → α) (v : List α)
    (h : softmaxTotal fl v = 0) : softmax fl v = v := by
  unfold softmax
  rw [softmaxTraced_of_total_zero fl v h]

theorem softmax_eq_of_total_ne_zero (fl : α → α) (v : List α)
    (h : softmaxTotal fl v ≠ 0) :
    softmax fl v = v.map (fun x => fl (x / softmaxTotal fl v)) := by
  unfold softmax
  rw [softmaxTraced_of_total_ne_zero fl v h]

end Softmax

/-! ## Rounding errors of the softmax loops -/

section SoftmaxError

/-- The relative error of one rounding is at most `2^-53`. -/
theorem roundDouble_rel {x : ℝ} (hx : 0 ≤ x) :
    (1 - 2 ^ (-53 : Int)) * x ≤ roundDouble x ∧ roundDouble x ≤ (1 + 2 ^ (-53 : Int)) * x := by
  rcases hx.eq_or_lt with h | h
  · rw [← h, roundDouble_zero]
    simp
  · obtain ⟨e, h1, h2⟩ := exists_binade h
    obtain ⟨-, -, h3, h4⟩ := roundDouble_bounds h1 h2
    have hs : (2 : ℝ) ^ (e - 53) = 2 ^ (-53 : Int) * 2 ^ e := by
      rw [← zpow_add₀ (by norm_num : (2 : ℝ) ≠ 0)]
      congr 1
      ring
    have hu : (0 : ℝ) < 2 ^ (-53 : Int) := zpow_pos (by norm_num) _
    have hle : (2 : ℝ) ^ (-53 : Int) * 2 ^ e ≤ 2 ^ (-53 : Int) * x :=
      mul_le_mul_of_nonneg_left h1 hu.le
    rw [hs] at h3 h4
    constructor <;> linarith

theorem foldl_round_nonneg (l : List ℝ) (hl : ∀ x ∈ l, 0 ≤ x) (a : ℝ) (ha : 0 ≤ a) :
    0 ≤ l.foldl (fun total x => roundDouble (total + x)) a := by
  induction l generalizing a with
  | nil => simpa using ha
  | cons x rest ih =>
    simp only [List.foldl_cons]
    exact ih (fun y hy => hl y (List.mem_cons_of_mem _ hy)) _
      (roundDouble_nonneg (add_nonneg ha (hl x (List.mem_cons_self _ _))))

/-- The accumulated total of non-negative entries is within `(1 ± 2^-53)^n` of the exact
sum. -/
theorem foldl_round_bounds (l : List ℝ) (hl : ∀ x ∈ l, 0 ≤ x) (a : ℝ) (ha : 0 ≤ a) :
    (1 - 2 ^ (-53 : Int)) ^ l.length * (a + l.sum)
        ≤ l.foldl (fun total x => roundDouble (total + x)) a
      ∧ l.foldl (fun total x => roundDouble (total + x)) a
        ≤ (1 + 2 ^ (-53 : Int)) ^ l.length * (a + l.sum) := by
  have hu : (0 : ℝ) < 2 ^ (-53 : Int) := zpow_pos (by norm_num) _
  have hu1 : (2 : ℝ) ^ (-53 : Int) < 1 := by norm_num
  induction l generalizing a with
  | nil => simp
  | cons x rest ih =>
    have hx : 0 ≤ x := hl x (List.mem_cons_self _ _)
    have hrest : ∀ y ∈ rest, 0 ≤ y := fun y hy => hl y (List.mem_cons_of_mem _ hy)
    have hS : 0 ≤ rest.sum := List.sum_nonneg hrest
    obtain ⟨r1, r2⟩ := roundDouble_rel (add_nonneg ha hx)
    obtain ⟨i1, i2⟩ := ih hrest (roundDouble (a + x)) (roundDouble_nonneg (add_nonneg ha hx))
    simp only [List.foldl_cons, List.length_cons, List.sum_cons, pow_succ]
    have hp1 : (0 : ℝ) ≤ (1 - 2 ^ (-53 : Int)) ^ rest.length := pow_nonneg (by linarith) _
    have hp2 : (0 : ℝ) ≤ (1 + 2 ^ (-53 : Int)) ^ rest.length := pow_nonneg (by linarith) _
    constructor
    · refine le_trans ?_ i1
      have : (1 - 2 ^ (-53 : Int)) * (a + (x + rest.sum)) ≤ roundDouble (a + x) + rest.sum := by
        nlinarith
      calc (1 - (2 : ℝ) ^ (-53 : Int)) ^ rest.length * (1 - 2 ^ (-53 : Int))
              * (a + (x + rest.sum))
          = (1 - (2 : ℝ) ^ (-53 : Int)) ^ rest.length
              * ((1 - 2 ^ (-53 : Int)) * (a + (x + rest.sum))) := by ring
        _ ≤ _ := mul_le_mul_of_nonneg_left this hp1
    · refine le_trans i2 ?_
      have : roundDouble (a + x) + rest.sum ≤ (1 + 2 ^ (-53 : Int)) * (a + (x + rest.sum)) := by
        nlinarith
      calc (1 + (2 : ℝ) ^ (-53 : Int)) ^ rest.length * (roundDouble (a + x) + rest.sum)
          ≤ (1 + (2 : ℝ) ^ (-53 : Int)) ^ rest.length
              * ((1 + 2 ^ (-53 : Int)) * (a + (x + rest.sum))) :=
            mul_le_mul_of_nonneg_left this hp2
        _ = _ := by ring

theorem softmaxTotal_bounds (l : List ℝ) (hl : ∀ x ∈ l, 0 ≤ x) :
    (1 - 2 ^ (-53 : Int)) ^ l.length * l.sum ≤ softmaxTotal roundDouble l
      ∧ softmaxTotal roundDouble l ≤ (1 + 2 ^ (-53 : Int)) ^ l.length * l.sum := by
  have h := foldl_round_bounds l hl 0 le_rfl
  simpa [softmaxTotal] using h

/-- The exact sum of the rounded quotients is within `1 ± 2^-53` of the exact quotient. -/
theorem sum_map_round_div_bounds (l : List ℝ) (hl : ∀ x ∈ l, 0 ≤ x) {t : ℝ} (ht : 0 < t) :
    (1 - 2 ^ (-53 : Int)) * (l.sum / t) ≤ (l.map (fun x => roundDouble (x / t))).sum
      ∧ (l.map (fun x => roundDouble (x / t))).sum ≤ (1 + 2 ^ (-53 : Int)) * (l.sum / t) := by
  induction l with
  | nil => simp
  | cons x rest ih =>
    have hx : 0 ≤ x := hl x (List.mem_cons_self _ _)
    obtain ⟨i1, i2⟩ := ih (fun y hy => hl y (List.mem_cons_of_mem _ hy))
    obtain ⟨r1, r2⟩ := roundDouble_rel (div_nonneg hx ht.le)
    simp only [List.map_cons, List.sum_cons, add_div]
    constructor <;> linarith

/-- Bernoulli bounds for the accumulated error factors. -/
theorem error_factor_bounds (u : ℝ) (hu : 0 ≤ u) (hu1 : u ≤ 1) (n : Nat)
    (hnu : (n : ℝ) * u ≤ 1 / 2) :
    1 - n * u ≤ (1 - u) ^ n ∧ (1 + u) ^ n * (1 - n * u) ≤ 1 ∧ 0 < 1 - n * u := by
  have hb : 1 - n * u ≤ (1 - u) ^ n := by
    have h := one_add_mul_le_pow (show (-2 : ℝ) ≤ -u by linarith) n
    have e : (1 : ℝ) + -u = 1 - u := by ring
    rw [e] at h
    linarith
  have hpos : 0 < 1 - n * u := by linarith
  refine ⟨hb, ?_, hpos⟩
  have hprod : (1 + u) ^ n * (1 - u) ^ n ≤ 1 := by
    rw [← mul_pow]
    apply pow_le_one₀
    · nlinarith
    · nlinarith
  have hp : 0 ≤ (1 + u) ^ n := pow_nonneg (by linarith) _
  calc (1 + u) ^ n * (1 - n * u)
      ≤ (1 + u) ^ n * (1 - u) ^ n := mul_le_mul_of_nonneg_left hb hp
    _ ≤ 1 := hprod

end SoftmaxError

section SoftmaxBounds

/-- The arithmetic behind the bound on the sum: with `A * S ≤ T ≤ B * S` for the total and
`(1 - u) * (S / T) ≤ Y ≤ (1 + u) * (S / T)` for the sum of the quotients, `Y` is within
`[1 - (w + u), 1 + 2 * (w + u)]`, where `1 - w ≤ A` and `B * (1 - w) ≤ 1`. -/
theorem sum_bounds_arith {u w T Y S A B : ℝ} (hu : 0 ≤ u) (hu1 : u ≤ 1) (hw0 : 0 ≤ w)
    (hw : w ≤ 1 / 2) (hT : 0 < T) (hS : 0 < S) (hB : 0 < B)
    (s1 : (1 - u) * (S / T) ≤ Y) (s2 : Y ≤ (1 + u) * (S / T))
    (b1 : 1 - w ≤ A) (t1 : A * S ≤ T) (b2 : B * (1 - w) ≤ 1) (t2 : T ≤ B * S) :
    1 - (w + u) ≤ Y ∧ Y ≤ 1 + 2 * (w + u) := by
  have hrA : A * (S / T) ≤ 1 := by
    rw [← mul_div_assoc, div_le_one hT]
    exact t1
  have hrB : 1 ≤ B * (S / T) := by
    rw [← mul_div_assoc, one_le_div hT]
    exact t2
  have hr0 : 0 < S / T := div_pos hS hT
  generalize S / T = r at *
  have hr2 : 1 - w ≤ r := by
    by_contra h
    push_neg at h
    have := mul_lt_mul_of_pos_left h hB
    linarith
  have hr1 : r * (1 - w) ≤ 1 := by
    have := mul_le_mul_of_nonneg_left b1 hr0.le
    linarith
  constructor
  · have h1 := mul_le_mul_of_nonneg_left hr2 (show 0 ≤ 1 - u by linarith)
    nlinarith [mul_nonneg hu hw0]
  · have key : 1 + u ≤ (1 + 2 * (w + u)) * (1 - w) := by
      nlinarith [mul_nonneg (add_nonneg hw0 hu) (show 0 ≤ 1 - 2 * w by linarith)]
    have h3 : (1 + u) * r ≤ 1 + 2 * (w + u) := by
      by_contra h
      push_neg at h
      have h2 := mul_lt_mul_of_pos_right h (show 0 < 1 - w by linarith)
      have h4 := mul_le_mul_of_nonneg_left hr1 (show 0 ≤ 1 + u by linarith)
      linarith
    linarith

/-- Rounded softmax of non-negative entries with a positive exact sum, for at most `2^20`
entries: the accumulated total is positive, and the exact sum of the returned entries is
within `[1 - m, 1 + 2 * m]` for `m = (n + 1) * 2^-53`. -/
theorem softmax_round_bounds (v : List ℝ) (hnn : ∀ x ∈ v, 0 ≤ x) (hS : 0 < v.sum)
    (hlen : v.length ≤ 1048576) :
    0 < softmaxTotal roundDouble v
      ∧ softmax roundDouble v
          = v.map (fun x => roundDouble (x / softmaxTotal roundDouble v))
      ∧ 1 - ((v.length : ℝ) * 2 ^ (-53 : Int) + 2 ^ (-53 : Int)) ≤ (softmax roundDouble v).sum
      ∧ (softmax roundDouble v).sum
          ≤ 1 + 2 * ((v.length : ℝ) * 2 ^ (-53 : Int) + 2 ^ (-53 : Int)) := by
  have hu : (0 : ℝ) ≤ 2 ^ (-53 : Int) := (zpow_pos (by norm_num) _).le
  have hu1 : (2 : ℝ) ^ (-53 : Int) ≤ 1 := by norm_num
  have hn1 : (v.length : ℝ) ≤ 1048576 := by exact_mod_cast hlen
  have hw0 : (0 : ℝ) ≤ (v.length : ℝ) * 2 ^ (-53 : Int) := mul_nonneg (Nat.cast_nonneg _) hu
  have hnu : (v.length : ℝ) * 2 ^ (-53 : Int) ≤ 1 / 2 :=
    le_trans (mul_le_mul_of_nonneg_right hn1 hu) (by norm_num)
  obtain ⟨b1, b2, b3⟩ := error_factor_bounds _ hu hu1 v.length hnu
  obtain ⟨t1, t2⟩ := softmaxTotal_bounds v hnn
  have hA : 0 < (1 - (2 : ℝ) ^ (-53 : Int)) ^ v.length := lt_of_lt_of_le b3 b1
  have hB : 0 < (1 + (2 : ℝ) ^ (-53 : Int)) ^ v.length := pow_pos (by linarith) _
  have hT : 0 < softmaxTotal roundDouble v := lt_of_lt_of_le (mul_pos hA hS) t1
  have he : softmax roundDouble v
      = v.map (fun x => roundDouble (x / softmaxTotal roundDouble v)) := by
    unfold softmax
    rw [softmaxTraced_of_total_ne_zero _ _ hT.ne']
  obtain ⟨s1, s2⟩ := sum_map_round_div_bounds v hnn hT
  rw [← he] at s1 s2
  exact ⟨hT, he, sum_bounds_arith hu hu1 hw0 hnu hT hS hB s1 s2 b1 t1 b2 t2⟩

end SoftmaxBounds

section SoftmaxTwice

/-- The arithmetic behind the bound on the second application: a quotient `y / T` rounded with
relative error `u`, for a total `T` within `[(1 - m)^2, (1 + 2 * m) / (1 - m)]`, is within
`4 * m * y` of `y`. -/
theorem quotient_bounds_arith {u m y T z : ℝ} (hu : 0 ≤ u) (hum : u ≤ m) (hm : m ≤ 1 / 8)
    (hy : 0 ≤ y) (hT : 0 < T) (hT1 : (1 - m) * (1 - m) ≤ T) (hT2 : T * (1 - m) ≤ 1 + 2 * m)
    (z1 : (1 - u) * (y / T) ≤ z) (z2 : z ≤ (1 + u) * (y / T)) :
    |z - y| ≤ 4 * m * y := by
  have hm0 : 0 ≤ m := le_trans hu hum
  have hq0 : 0 ≤ y / T := div_nonneg hy hT.le
  have hqT : y / T * T = y := div_mul_cancel₀ y hT.ne'
  generalize y / T = q at *
  have h1 : q * ((1 - m) * (1 - m)) ≤ y := by
    have := mul_le_mul_of_nonneg_left hT1 hq0
    linarith
  have h2 : y * (1 - m) ≤ q * (1 + 2 * m) := by
    have := mul_le_mul_of_nonneg_left hT2 hq0
    nlinarith
  have key1 : 1 + m ≤ (1 + 4 * m) * ((1 - m) * (1 - m)) := by
    nlinarith [mul_nonneg hm0 (show 0 ≤ 1 - 7 * m + 4 * m * m by nlinarith)]
  have key2 : (1 - 4 * m) * (1 + 2 * m) ≤ (1 - m) * (1 - m) := by
    nlinarith [mul_nonneg hm0 hm0]
  have up : z ≤ (1 + 4 * m) * y := by
    have a1 : z ≤ (1 + m) * q := by nlinarith
    have a2 : (1 + m) * q ≤ (1 + 4 * m) * ((1 - m) * (1 - m)) * q :=
      mul_le_mul_of_nonneg_right key1 hq0
    have a3 : (1 + 4 * m) * (q * ((1 - m) * (1 - m))) ≤ (1 + 4 * m) * y :=
      mul_le_mul_of_nonneg_left h1 (by linarith)
    linarith
  have lo : (1 - 4 * m) * y ≤ z := by
    have a1 : (1 - m) * q ≤ z := by nlinarith
    have a2 : (1 - 4 * m) * y ≤ (1 - m) * q := by
      by_contra h
      push_neg at h
      have c1 := mul_lt_mul_of_pos_right h (show 0 < 1 + 2 * m by linarith)
      have c2 := mul_le_mul_of_nonneg_left h2 (show 0 ≤ 1 - m by linarith)
      have c3 := mul_le_mul_of_nonneg_right key2 hy
      linarith
    linarith
  rw [abs_le]
  constructor <;> linarith

/-- Rounded softmax applied twice to non-negative entries with a positive exact sum, for at
most `2^20` entries: the second total is positive and every entry of the first result is
reproduced up to the relative error `4 * m`, `m = (n + 1) * 2^-53`. -/
theorem softmax_twice_round_bounds (v : List ℝ) (hnn : ∀ x ∈ v, 0 ≤ x) (hS : 0 < v.sum)
    (hlen : v.length ≤ 1048576) :
    0 < softmaxTotal roundDouble (softmax roundDouble v)
      ∧ ∀ y ∈ softmax roundDouble v,
          |roundDouble (y / softmaxTotal roundDouble (softmax roundDouble v)) - y|
            ≤ 4 * ((v.length : ℝ) * 2 ^ (-53 : Int) + 2 ^ (-53 : Int)) * y := by
  obtain ⟨hT, he, y1, y2⟩ := softmax_round_bounds v hnn hS hlen
  have hu : (0 : ℝ) ≤ 2 ^ (-53 : Int) := (zpow_pos (by norm_num) _).le
  have hu1 : (2 : ℝ) ^ (-53 : Int) ≤ 1 := by norm_num
  have hn1 : (v.length : ℝ) ≤ 1048576 := by exact_mod_cast hlen
  have hw0 : (0 : ℝ) ≤ (v.length : ℝ) * 2 ^ (-53 : Int) := mul_nonneg (Nat.cast_nonneg _) hu
  have hnu : (v.length : ℝ) * 2 ^ (-53 : Int) ≤ 1 / 16 :=
    le_trans (mul_le_mul_of_nonneg_right hn1 hu) (by norm_num)
  have hu16 : (2 : ℝ) ^ (-53 : Int) ≤ 1 / 16 := by norm_num
  have hynn : ∀ y ∈ softmax roundDouble v, 0 ≤ y := by
    intro y hy
    rw [he, List.mem_map] at hy
    obtain ⟨x, hx, rfl⟩ := hy
    exact roundDouble_nonneg (div_nonneg (hnn x hx) hT.le)
  have hlen2 : (softmax roundDouble v).length = v.length := by
    rw [he, List.length_map]
  obtain ⟨t1, t2⟩ := softmaxTotal_bounds (softmax roundDouble v) hynn
  rw [hlen2] at t1 t2
  have hrel : ∀ x : ℝ, 0 ≤ x → (1 - 2 ^ (-53 : Int)) * x ≤ roundDouble x
      ∧ roundDouble x ≤ (1 + 2 ^ (-53 : Int)) * x := fun x hx => roundDouble_rel hx
  generalize (2 : ℝ) ^ (-53 : Int) = u at *
  generalize hn_def : (v.length : ℝ) = n at *
  generalize softmaxTotal roundDouble (softmax roundDouble v) = T2 at *
  generalize (softmax roundDouble v).sum = Y at *
  have hun : n * u ≤ 1 / 2 := by linarith
  obtain ⟨b1, b2, b3⟩ := error_factor_bounds u hu hu1 v.length (by rw [hn_def]; exact hun)
  rw [hn_def] at b1 b2 b3
  have hB : 0 < (1 + u) ^ v.length := pow_pos (by linarith) _
  generalize (1 - u) ^ v.length = A at *
  generalize (1 + u) ^ v.length = B at *
  have hT1 : (1 - (n * u + u)) * (1 - (n * u + u)) ≤ T2 := by
    refine le_trans ?_ t1
    apply mul_le_mul _ y1 (by linarith) (by linarith)
    linarith
  have hT2 : T2 * (1 - (n * u + u)) ≤ 1 + 2 * (n * u + u) := by
    have c1 : T2 * (1 - (n * u + u)) ≤ B * Y * (1 - n * u) := by
      apply mul_le_mul t2 (by linarith) (by linarith)
      exact mul_nonneg hB.le (by linarith)
    have c3 : B * (1 - n * u) * Y ≤ 1 * Y := mul_le_mul_of_nonneg_right b2 (by linarith)
    have c2 : B * Y * (1 - n * u) = B * (1 - n * u) * Y := by ring
    linarith
  have hT0 : 0 < T2 := by
    refine lt_of_lt_of_le ?_ hT1
    apply mul_pos <;> linarith
  refine ⟨hT0, fun y hy => ?_⟩
  obtain ⟨z1, z2⟩ := hrel _ (div_nonneg (hynn y hy) hT0.le)
  exact quotient_bounds_arith hu (by linarith) (by linarith) (hynn y hy) hT0 hT1 hT2 z1 z2

end SoftmaxTwice

/-! ## Concrete roundings -/

section Examples

theorem roundDouble_three : roundDouble (3 : ℝ) = 3 := by
  rw [roundDouble_eval 1 6755399441055744 (by norm_num [abs_of_pos])
    (by norm_num [abs_of_pos]) (by norm_num) (by norm_num)]
  norm_num

theorem roundDouble_two_pow_54_succ :
    roundDouble ((18014398509481984 : ℝ) + 1) = 18014398509481984 := by
  rw [roundDouble_eval 54 4503599627370496 (by norm_num [abs_of_pos])
    (by norm_num [abs_of_pos]) (by norm_num) (by norm_num)]
  norm_num

theorem roundDouble_two_pow_54 :
    roundDouble (18014398509481984 : ℝ) = 18014398509481984 := by
  have h := @roundDouble_zpow ℝ _ _ 54
  have e : (2 : ℝ) ^ (54 : Int) = 18014398509481984 := by norm_num
  rwa [e] at h

/-- The total of `[2^54, 1, 1, -2^54]` in double arithmetic: both additions of `1` are
absorbed, and the last addition cancels. -/
theorem softmaxTotal_cancelled :
    softmaxTotal roundDouble ([18014398509481984, 1, 1, -18014398509481984] : List ℝ) = 0 := by
  simp only [softmaxTotal, List.foldl, zero_add]
  rw [roundDouble_two_pow_54, roundDouble_two_pow_54_succ, roundDouble_two_pow_54_succ,
    add_neg_cancel, roundDouble_zero]

theorem nonneg_of_range {v : List ℝ}
    (hrange : ∀ x ∈ v, x = 0 ∨ ((2 : ℝ) ^ (-400 : Int) ≤ x ∧ x ≤ (2 : ℝ) ^ (400 : Int))) :
    ∀ x ∈ v, 0 ≤ x := by
  intro x hx
  rcases hrange x hx with h | ⟨h, -⟩
  · exact h.ge
  · exact le_trans (zpow_pos (by norm_num) _).le h

theorem sum_pos_of_range {v : List ℝ}
    (hrange : ∀ x ∈ v, x = 0 ∨ ((2 : ℝ) ^ (-400 : Int) ≤ x ∧ x ≤ (2 : ℝ) ^ (400 : Int)))
    (hne : ∃ x ∈ v, x ≠ 0) : 0 < v.sum := by
  obtain ⟨x, hx, hx0⟩ := hne
  have hnn := nonneg_of_range hrange
  have hpos : 0 < x := lt_of_le_of_ne (hnn x hx) (Ne.symm hx0)
  exact lt_of_lt_of_le hpos (List.single_le_sum hnn x hx)

end Examples

section Thirds

theorem roundDouble_five : roundDouble (5 : ℝ) = 5 := by
  rw [roundDouble_eval 2 5629499534213120 (by norm_num [abs_of_pos])
    (by norm_num [abs_of_pos]) (by norm_num) (by norm_num)]
  norm_num

theorem roundDouble_six : roundDouble (6 : ℝ) = 6 := by
  rw [roundDouble_eval 2 6755399441055744 (by norm_num [abs_of_pos])
    (by norm_num [abs_of_pos]) (by norm_num) (by norm_num)]
  norm_num

theorem roundDouble_sixth :
    roundDouble ((1 : ℝ) / 6) = 6004799503160661 / 36028797018963968 := by
  rw [roundDouble_eval (-3) 6004799503160661 (by norm_num [abs_of_pos])
    (by norm_num [abs_of_pos]) (by norm_num) (by norm_num)]
  norm_num

theorem roundDouble_two_thirds :
    roundDouble ((4 : ℝ) / 6) = 6004799503160661 / 9007199254740992 := by
  rw [roundDouble_eval (-1) 6004799503160661 (by norm_num [abs_of_pos])
    (by norm_num [abs_of_pos]) (by norm_num) (by norm_num)]
  norm_num

/-- The doubles nearest to `1/6` and `2/3` are returned by the rounding as they are. -/
theorem roundDouble_sixth_double :
    roundDouble ((6004799503160661 : ℝ) / 36028797018963968)
      = 6004799503160661 / 36028797018963968 := by
  rw [← roundDouble_sixth, roundDouble_idem]

theorem roundDouble_sixth_add_two_thirds :
    roundDouble ((6004799503160661 : ℝ) / 36028797018963968
        + 6004799503160661 / 9007199254740992)
      = 3752999689475413 / 4503599627370496 := by
  rw [roundDouble_eval (-1) 7505999378950826 (by norm_num [abs_of_pos])
    (by norm_num [abs_of_pos]) (by norm_num) (by norm_num)]
  norm_num

theorem roundDouble_five_sixths_add_sixth :
    roundDouble ((3752999689475413 : ℝ) / 4503599627370496
        + 6004799503160661 / 36028797018963968)
      = 9007199254740991 / 9007199254740992 := by
  rw [roundDouble_eval (-1) 9007199254740991 (by norm_num [abs_of_pos])
    (by norm_num [abs_of_pos]) (by norm_num) (by norm_num)]
  norm_num

theorem roundDouble_sixth_div :
    roundDouble ((6004799503160661 : ℝ) / 36028797018963968
        / (9007199254740991 / 9007199254740992))
      = 3002399751580331 / 18014398509481984 := by
  rw [roundDouble_eval (-3) 6004799503160662 (by norm_num [abs_of_pos])
    (by norm_num [abs_of_pos]) (by norm_num) (by norm_num)]
  norm_num

theorem roundDouble_two_thirds_div :
    roundDouble ((6004799503160661 : ℝ) / 9007199254740992
        / (9007199254740991 / 9007199254740992))
      = 3002399751580331 / 4503599627370496 := by
  rw [roundDouble_eval (-1) 6004799503160662 (by norm_num [abs_of_pos])
    (by norm_num [abs_of_pos]) (by norm_num) (by norm_num)]
  norm_num

/-- In double arithmetic `softmax [1, 4, 1]` is made of the doubles nearest to `1/6` and
`2/3`. -/
theorem softmax_one_four_one :
    softmax roundDouble ([1, 4, 1] : List ℝ)
      = [6004799503160661 / 36028797018963968, 6004799503160661 / 9007199254740992,
          6004799503160661 / 36028797018963968] := by
  have ht : softmaxTotal roundDouble ([1, 4, 1] : List ℝ) = 6 := by
    simp only [softmaxTotal, List.foldl, zero_add]
    rw [roundDouble_one, show (1 : ℝ) + 4 = 5 by norm_num, roundDouble_five,
      show (5 : ℝ) + 1 = 6 by norm_num, roundDouble_six]
  unfold softmax
  rw [softmaxTraced_of_total_ne_zero _ _ (by rw [ht]; norm_num), ht]
  simp only [List.map, roundDouble_sixth, roundDouble_two_thirds]

/-- The total of the doubles nearest to `1/6`, `2/3`, `1/6` is accumulated as `1 - 2^-53`. -/
theorem softmaxTotal_thirds :
    softmaxTotal roundDouble
        ([6004799503160661 / 36028797018963968, 6004799503160661 / 9007199254740992,
          6004799503160661 / 36028797018963968] : List ℝ)
      = 9007199254740991 / 9007199254740992 := by
  simp only [softmaxTotal, List.foldl, zero_add]
  rw [roundDouble_sixth_double, roundDouble_sixth_add_two_thirds,
    roundDouble_five_sixths_add_sixth]

theorem softmax_thirds :
    softmax roundDouble
        ([6004799503160661 / 36028797018963968, 6004799503160661 / 9007199254740992,
          6004799503160661 / 36028797018963968] : List ℝ)
      = [3002399751580331 / 18014398509481984, 3002399751580331 / 4503599627370496,
          3002399751580331 / 18014398509481984] := by
  unfold softmax
  rw [softmaxTraced_of_total_ne_zero _ _ (by rw [softmaxTotal_thirds]; norm_num),
    softmaxTotal_thirds]
  simp only [List.map, roundDouble_sixth_div, roundDouble_two_thirds_div]

end Thirds

/-! ## The rounded sigmoid -/

section SigmoidRounded

/-- With exact arithmetic the rounded sigmoid is the sigmoid. -/
theorem sigmoidRounded_id (exp : ℝ → ℝ) (x : ℝ) (prime : Bool) (neuron : Neuron ℝ) :
    sigmoidRounded id exp x prime neuron = sigmoid exp x prime neuron := rfl

theorem exp_neg_forty_lt : Real.exp (-40) < 2 ^ (-54 : Int) := by
  have h1 : (2.7182818283 : ℝ) < Real.exp 1 := Real.exp_one_gt_d9
  have h2 : Real.exp 40 = Real.exp 1 ^ 40 := by
    rw [← Real.exp_nat_mul]
    norm_num
  have h3 : (2 : ℝ) ^ 54 < Real.exp 40 := by
    rw [h2]
    calc (2 : ℝ) ^ 54 < 2.7182818283 ^ 40 := by norm_num
      _ < Real.exp 1 ^ 40 := pow_lt_pow_left₀ h1 (by norm_num) (by norm_num)
  have h4 : (2 : ℝ) ^ (-54 : Int) = (2 ^ 54)⁻¹ := by norm_num
  rw [h4, Real.exp_neg]
  exact inv_strictAnti₀ (by norm_num) h3

/-- In double arithmetic `1 + exp(-40)` is `1`. -/
theorem roundDouble_one_add_exp :
    roundDouble (1 + roundDouble (Real.exp (-40))) = 1 := by
  apply roundDouble_one_add (roundDouble_nonneg (Real.exp_pos _).le)
  have h := roundDouble_le_zpow (Real.exp_pos (-40)).le exp_neg_forty_lt.le
  exact lt_of_le_of_lt h (by norm_num)

/-- The double nearest to `exp(-2^-60)` is `1`. -/
theorem roundDouble_exp_tiny : roundDouble (Real.exp (-(2 : ℝ) ^ (-60 : Int))) = 1 := by
  have hpos : (0 : ℝ) < 2 ^ (-60 : Int) := zpow_pos (by norm_num) _
  have h1 : -(2 : ℝ) ^ (-60 : Int) + 1 < Real.exp (-(2 : ℝ) ^ (-60 : Int)) :=
    Real.add_one_lt_exp (by linarith)
  have h2 : Real.exp (-(2 : ℝ) ^ (-60 : Int)) < 1 := Real.exp_lt_one_iff.mpr (by linarith)
  have h3 : (2 : ℝ) ^ (-60 : Int) < 2 ^ (-54 : Int) := by norm_num
  have e : Real.exp (-(2 : ℝ) ^ (-60 : Int))
      = 1 - (1 - Real.exp (-(2 : ℝ) ^ (-60 : Int))) := by ring
  rw [e]
  apply roundDouble_one_sub
  · linarith
  · refine lt_trans ?_ h3
    linarith

/-- The product of a rounded value in `[0, 1]` with its rounded complement rounds to at most
`1/4`. -/
theorem roundDouble_mul_complement_le {val : ℝ} (h0 : 0 ≤ val) (h1 : val ≤ 1) :
    roundDouble (val * roundDouble (1 - val)) ≤ 1 / 4 := by
  have hw0 : 0 ≤ roundDouble (1 - val) := roundDouble_nonneg (by linarith)
  have hc : (0 : ℝ) < 2 ^ (-55 : Int) := zpow_pos (by norm_num) _
  have e54 : (2 : ℝ) ^ ((0 : Int) - 54) = 2 * 2 ^ (-55 : Int) := by norm_num
  have e55 : (2 : ℝ) ^ ((-1 : Int) - 54) = 2 ^ (-55 : Int) := by norm_num
  have hsq : val * (1 - val) ≤ 1 / 4 := by nlinarith [sq_nonneg (val - 1 / 2)]
  rcases h0.eq_or_lt with hz | hpos
  · rw [← hz, zero_mul, roundDouble_zero]
    norm_num
  rcases lt_trichotomy val (1 / 2) with hlt | heq | hgt
  · have hw := roundDouble_le_add (show 0 ≤ 1 - val by linarith)
      (show 1 - val < (2 : ℝ) ^ (0 : Int) by rw [zpow_zero]; linarith)
    rw [e54] at hw
    apply roundDouble_le_quarter (mul_nonneg h0 hw0)
    generalize (2 : ℝ) ^ (-55 : Int) = c at *
    have := mul_le_mul_of_nonneg_left hw h0
    nlinarith
  · rw [heq, show (1 : ℝ) - 1 / 2 = 1 / 2 by norm_num, roundDouble_half,
      show (1 / 2 : ℝ) * (1 / 2) = 1 / 4 by norm_num, roundDouble_quarter]
  · have hw := roundDouble_le_add (show 0 ≤ 1 - val by linarith)
      (show 1 - val < (2 : ℝ) ^ (-1 : Int) by
        have : (2 : ℝ) ^ (-1 : Int) = 1 / 2 := by norm_num
        rw [this]
        linarith)
    rw [e55] at hw
    apply roundDouble_le_quarter (mul_nonneg h0 hw0)
    generalize (2 : ℝ) ^ (-55 : Int) = c at *
    have := mul_le_mul_of_nonneg_left hw h0
    nlinarith

end SigmoidRounded

/-! ## The gain rule -/

section Gain

variable {α : Type} [LinearOrderedField α]

/-- The gain that `NetMath::gain` stores: shrunk by 5% down to `0.5` on a sign flip, grown by
`0.05` up to `5` otherwise. -/
theorem gain_eq {nets : List (Network α)} {ni : Int} {net : Network α} (value dv : α)
    {neuron : Neuron α} {wi : Int} {g : α}
    (hnet : Network.getInstance nets ni = some net) (hg : gainSlot neuron wi = some g) :
    gain nets ni value dv neuron wi
      = some (value + net.learningRate * dv * g,
          if wi > -1 then
            { neuron with weightGain := (neuron.weightGain.set wi.toNat
                (if (value + net.learningRate * dv * g ≤ 0 ∧ value > 0)
                    ∨ (value + net.learningRate * dv * g ≥ 0 ∧ value < 0)
                  then max (g * 0.95) 0.5 else min (g + 0.05) 5)) }
          else
            { neuron with biasGain :=
                (if (value + net.learningRate * dv * g ≤ 0 ∧ value > 0)
                    ∨ (value + net.learningRate * dv * g ≥ 0 ∧ value < 0)
                  then max (g * 0.95) 0.5 else min (g + 0.05) 5) }) := by
  unfold gainSlot at hg
  by_cases hwi : wi < 0
  · have hwi' : ¬ wi > -1 := by omega
    rw [if_pos hwi] at hg
    cases hg
    simp only [gain, hnet, hwi, hwi', if_true, if_false, Option.pure_def, Option.bind_eq_bind,
      Option.some_bind]
    split <;> rfl
  · have hwi' : wi > -1 := by omega
    rw [if_neg hwi] at hg
    simp only [gain, hnet, hwi, hwi', hg, vecSet_of_vecGet hg, if_true, if_false,
      Option.pure_def, Option.bind_eq_bind, Option.some_bind]
    split <;> rfl

theorem gainSlot_after {neuron : Neuron α} {wi : Int} {g : α} (x : α)
    (hg : gainSlot neuron wi = some g) :
    gainSlot (if wi > -1 then { neuron with weightGain := neuron.weightGain.set wi.toNat x }
      else { neuron with biasGain := x }) wi = some x := by
  unfold gainSlot at hg ⊢
  by_cases hwi : wi < 0
  · have hwi' : ¬ wi > -1 := by omega
    simp [hwi, hwi']
  · have hwi' : wi > -1 := by omega
    rw [if_neg hwi] at hg
    simp only [hwi, hwi', if_true, if_false]
    exact vecGet_set_same hg x

theorem gainSlot_of_lt {neuron : Neuron α} {wi : Int}
    (hwi : wi < (neuron.weightGain.length : Int)) :
    ∃ g, gainSlot neuron wi = some g ∧ (g = neuron.biasGain ∨ g ∈ neuron.weightGain) := by
  unfold gainSlot vecGet
  by_cases h : wi < 0
  · exact ⟨neuron.biasGain, by simp [h], Or.inl rfl⟩
  · have hlt : wi.toNat < neuron.weightGain.length := by omega
    refine ⟨neuron.weightGain[wi.toNat], by simp [h, hlt], Or.inr ?_⟩
    exact List.getElem_mem hlt

theorem shrink_bounds {g : α} (h : 0.5 ≤ g ∧ g ≤ 5) :
    0.5 ≤ max (g * 0.95) 0.5 ∧ max (g * 0.95) 0.5 ≤ (5 : α) := by
  refine ⟨le_max_right _ _, max_le ?_ (by norm_num)⟩
  have := h.2
  norm_num at this ⊢
  linarith

theorem grow_bounds {g : α} (h : 0.5 ≤ g ∧ g ≤ 5) :
    0.5 ≤ min (g + 0.05) 5 ∧ min (g + 0.05) 5 ≤ (5 : α) := by
  refine ⟨le_min ?_ (by norm_num), min_le_right _ _⟩
  have := h.1
  norm_num at this ⊢
  linarith

/-- One in-range call of `gain` returns, keeps the gains bounded and keeps the length of
`weightGain`. -/
theorem gain_step_bounded {nets : List (Network α)} {ni : Int} (value dv : α)
    {neuron : Neuron α} {wi : Int} (hb : GainsBounded neuron)
    (hnet : (Network.getInstance nets ni).isSome)
    (hwi : wi < (neuron.weightGain.length : Int)) :
    ∃ r, gain nets ni value dv neuron wi = some r ∧ GainsBounded r.2
      ∧ r.2.weightGain.length = neuron.weightGain.length := by
  obtain ⟨net, hnet⟩ := Option.isSome_iff_exists.mp hnet
  obtain ⟨g, hg, hmem⟩ := gainSlot_of_lt hwi
  have hgb : 0.5 ≤ g ∧ g ≤ 5 := by
    rcases hmem with h | h
    · rw [h]; exact hb.1
    · exact hb.2 g h
  have hnew : ∀ p : Prop, ∀ _ : Decidable p,
      0.5 ≤ (if p then max (g * 0.95) 0.5 else min (g + 0.05) 5)
        ∧ (if p then max (g * 0.95) 0.5 else min (g + 0.05) 5) ≤ (5 : α) := by
    intro p _
    split
    · exact shrink_bounds hgb
    · exact grow_bounds hgb
  refine ⟨_, gain_eq value dv hnet hg, ?_, ?_⟩
  · by_cases h : wi > -1
    · simp only [h, if_true]
      refine ⟨hb.1, ?_⟩
      intro x hx
      rcases List.mem_or_eq_of_mem_set hx with hx | hx
      · exact hb.2 x hx
      · rw [hx]; exact hnew _ _
    · simp only [h, if_false]
      exact ⟨hnew _ _, hb.2⟩
  · by_cases h : wi > -1 <;> simp [h]

/-- Along a sequence of in-range calls of `gain` the gains stay bounded. -/
theorem gain_run_bounded {nets : List (Network α)} (calls : List (UpdateCall α)) :
    ∀ neuron : Neuron α, GainsBounded neuron →
      (∀ c ∈ calls, (Network.getInstance nets c.netInstance).isSome
        ∧ c.weightIndex < (neuron.weightGain.length : Int)) →
      ∃ neuron', runUpdates (gain nets) neuron calls = some neuron' ∧ GainsBounded neuron' := by
  induction calls with
  | nil => intro neuron hb _; exact ⟨neuron, rfl, hb⟩
  | cons c rest ih =>
    intro neuron hb hc
    obtain ⟨hnet, hwi⟩ := hc c (List.mem_cons_self _ _)
    obtain ⟨r, hr, hrb, hlen⟩ := gain_step_bounded c.value c.deltaValue hb hnet hwi
    obtain ⟨n', hn', hb'⟩ := ih r.2 hrb (by
      intro c' hc'
      rw [hlen]
      exact hc c' (List.mem_cons_of_mem _ hc'))
    exact ⟨n', by simp [runUpdates, hr, hn'], hb'⟩

end Gain

/-! ## The cache-based rules -/

section Caches

variable {α : Type} [LinearOrderedField α]

theorem adagrad_eq (sqrt : α → α) {nets : List (Network α)} {ni : Int} {net : Network α}
    (value dv : α) {neuron : Neuron α} {wi : Int} {c : α}
    (hnet : Network.getInstance nets ni = some net) (hc : cacheSlot neuron wi = some c) :
    adagrad sqrt nets ni value dv neuron wi
      = some (value + net.learningRate * dv / (1e-6 + sqrt (c + dv ^ 2)),
          if wi > -1 then
            { neuron with weightsCache := (neuron.weightsCache.set wi.toNat (c + dv ^ 2)) }
          else { neuron with biasCache := c + dv ^ 2 }) := by
  unfold cacheSlot at hc
  by_cases hwi : wi > -1
  · rw [if_pos hwi] at hc
    simp only [adagrad, hnet, hwi, hc, vecSet_of_vecGet hc, vecGet_set_same hc, if_true,
      Option.pure_def, Option.bind_eq_bind, Option.some_bind]
  · rw [if_neg hwi] at hc
    cases hc
    simp only [adagrad, hnet, hwi, if_false, Option.pure_def, Option.bind_eq_bind,
      Option.some_bind]

theorem rmsprop_eq (sqrt : α → α) {nets : List (Network α)} {ni : Int} {net : Network α}
    (value dv : α) {neuron : Neuron α} {wi : Int} {c : α}
    (hnet : Network.getInstance nets ni = some net) (hc : cacheSlot neuron wi = some c) :
    rmsprop sqrt nets ni value dv neuron wi
      = some (value + net.learningRate * dv
            / (1e-6 + sqrt (net.rmsDecay * c + (1 - net.rmsDecay) * dv ^ 2)),
          if wi > -1 then
            { neuron with weightsCache :=
                (neuron.weightsCache.set wi.toNat
                  (net.rmsDecay * c + (1 - net.rmsDecay) * dv ^ 2)) }
          else { neuron with biasCache := net.rmsDecay * c + (1 - net.rmsDecay) * dv ^ 2 }) := by
  unfold cacheSlot at hc
  by_cases hwi : wi > -1
  · rw [if_pos hwi] at hc
    simp only [rmsprop, hnet, hwi, hc, vecSet_of_vecGet hc, vecGet_set_same hc, if_true,
      Option.pure_def, Option.bind_eq_bind, Option.some_bind]
  · rw [if_neg hwi] at hc
    cases hc
    simp only [rmsprop, hnet, hwi, if_false, Option.pure_def, Option.bind_eq_bind,
      Option.some_bind]

theorem adadelta_eq (sqrt : α → α) {nets : List (Network α)} {ni : Int} {net : Network α}
    (value dv : α) {neuron : Neuron α} {wi : Int} {c a : α}
    (hnet : Network.getInstance nets ni = some net) (hc : cacheSlot neuron wi = some c)
    (ha : adadeltaSlot neuron wi = some a) :
    adadelta sqrt nets ni value dv neuron wi
      = some (value + sqrt ((a + 1e-6) / (net.rho * c + (1 - net.rho) * dv ^ 2 + 1e-6)) * dv,
          if wi > -1 then
            { neuron with
              weightsCache :=
                (neuron.weightsCache.set wi.toNat (net.rho * c + (1 - net.rho) * dv ^ 2))
              adadeltaCache :=
                (neuron.adadeltaCache.set wi.toNat (net.rho * a + (1 - net.rho) * dv ^ 2)) }
          else
            { neuron with
              biasCache := net.rho * c + (1 - net.rho) * dv ^ 2
              adadeltaBiasCache := net.rho * a + (1 - net.rho) * dv ^ 2 }) := by
  unfold cacheSlot at hc
  unfold adadeltaSlot at ha
  by_cases hwi : wi > -1
  · rw [if_pos hwi] at hc ha
    simp only [adadelta, hnet, hwi, hc, ha, vecSet_of_vecGet hc, vecSet_of_vecGet ha,
      vecGet_set_same hc, if_true, Option.pure_def, Option.bind_eq_bind, Option.some_bind]
  · rw [if_neg hwi] at hc ha
    cases hc
    cases ha
    simp only [adadelta, hnet, hwi, if_false, Option.pure_def, Option.bind_eq_bind,
      Option.some_bind]

theorem adam_eq (sqrt : α → α) {nets : List (Network α)} {ni : Int} {net : Network α}
    (value dv : α) (neuron : Neuron α) (wi : Int)
    (hnet : Network.getInstance nets ni = some net) :
    adam sqrt nets ni value dv neuron wi
      = some (value + net.learningRate
              * ((0.9 * neuron.m + (1 - 0.9) * dv)
                  / (1 - (0.9 : α) ^ wrapInt32 (net.iterations + 1)))
              / (sqrt ((0.999 * neuron.v + (1 - 0.999) * dv ^ 2)
                  / (1 - (0.999 : α) ^ wrapInt32 (net.iterations + 1))) + 1e-6),
          { neuron with
            m := 0.9 * neuron.m + (1 - 0.9) * dv
            v := 0.999 * neuron.v + (1 - 0.999) * dv ^ 2 }) := by
  simp only [adam, hnet, Option.pure_def, Option.bind_eq_bind, Option.some_bind]

theorem wrapInt32_of_range {n : Int} (h1 : -2147483648 ≤ n) (h2 : n < 2147483648) :
    wrapInt32 n = n := by
  unfold wrapInt32
  omega

/-- The value `adam` returns while `iterations + 1` stays inside the 32-bit range. -/
theorem adam_eq_in_range (sqrt : α → α) {nets : List (Network α)} {ni : Int}
    {net : Network α} (value dv : α) (neuron : Neuron α) (wi : Int)
    (hnet : Network.getInstance nets ni = some net)
    (h1 : -2147483649 ≤ net.iterations) (h2 : net.iterations < 2147483647) :
    adam sqrt nets ni value dv neuron wi
      = some (value + net.learningRate
              * ((0.9 * neuron.m + (1 - 0.9) * dv) / (1 - (0.9 : α) ^ (net.iterations + 1)))
              / (sqrt ((0.999 * neuron.v + (1 - 0.999) * dv ^ 2)
                  / (1 - (0.999 : α) ^ (net.iterations + 1))) + 1e-6),
          { neuron with
            m := 0.9 * neuron.m + (1 - 0.9) * dv
            v := 0.999 * neuron.v + (1 - 0.999) * dv ^ 2 }) := by
  rw [adam_eq sqrt value dv neuron wi hnet,
    wrapInt32_of_range (n := net.iterations + 1) (by omega) (by omega)]

theorem cacheSlot_after {neuron : Neuron α} {wi : Int} {c : α} (x : α)
    (hc : cacheSlot neuron wi = some c) :
    cacheSlot (if wi > -1 then { neuron with weightsCache := neuron.weightsCache.set wi.toNat x }
      else { neuron with biasCache := x }) wi = some x := by
  unfold cacheSlot at hc ⊢
  by_cases hwi : wi > -1
  · rw [if_pos hwi] at hc
    simp only [hwi, if_true]
    exact vecGet_set_same hc x
  · simp [hwi]

theorem cacheSlot_of_lt {neuron : Neuron α} {wi : Int}
    (hwi : wi < (neuron.weightsCache.length : Int)) :
    ∃ c, cacheSlot neuron wi = some c := by
  unfold cacheSlot vecGet
  by_cases h : wi > -1
  · have hlt : wi.toNat < neuron.weightsCache.length := by omega
    have h0 : ¬ wi < 0 := by omega
    exact ⟨neuron.weightsCache[wi.toNat], by simp [h, h0, hlt]⟩
  · exact ⟨neuron.biasCache, by simp [h]⟩

theorem CachesLE.refl (a : Neuron α) : CachesLE a a :=
  ⟨le_refl _, fun _ x hx => ⟨x, hx, le_refl _⟩⟩

theorem CachesLE.trans {a b c : Neuron α} (hab : CachesLE a b) (hbc : CachesLE b c) :
    CachesLE a c := by
  refine ⟨le_trans hab.1 hbc.1, ?_⟩
  intro i x hx
  obtain ⟨y, hy, hxy⟩ := hab.2 i x hx
  obtain ⟨z, hz, hyz⟩ := hbc.2 i y hy
  exact ⟨z, hz, le_trans hxy hyz⟩

/-- Raising the selected cache slot from `c` to `x ≥ c` leaves no cache entry smaller. -/
theorem cachesLE_after {neuron : Neuron α} {wi : Int} {c x : α}
    (hc : cacheSlot neuron wi = some c) (hx : c ≤ x) :
    CachesLE neuron
      (if wi > -1 then { neuron with weightsCache := neuron.weightsCache.set wi.toNat x }
        else { neuron with biasCache := x }) := by
  unfold cacheSlot at hc
  by_cases hwi : wi > -1
  · rw [if_pos hwi] at hc
    obtain ⟨_, hlt, hget⟩ := vecGet_eq_some hc
    simp only [hwi, if_true]
    refine ⟨le_refl _, ?_⟩
    intro i y hy
    rw [List.getElem?_set]
    by_cases hi : wi.toNat = i
    · subst hi
      rw [hget] at hy
      cases hy
      exact ⟨x, by simp [hlt], hx⟩
    · exact ⟨y, by simp [hi, hy], le_refl _⟩
  · rw [if_neg hwi] at hc
    cases hc
    simp only [hwi, if_false]
    exact ⟨hx, fun _ y hy => ⟨y, hy, le_refl _⟩⟩

/-- One in-range call of `adagrad` returns, lowers no cache entry and keeps the length of
`weightsCache`. -/
theorem adagrad_step_mono (sqrt : α → α) {nets : List (Network α)} {ni : Int} (value dv : α)
    {neuron : Neuron α} {wi : Int} (hnet : (Network.getInstance nets ni).isSome)
    (hwi : wi < (neuron.weightsCache.length : Int)) :
    ∃ r, adagrad sqrt nets ni value dv neuron wi = some r ∧ CachesLE neuron r.2
      ∧ r.2.weightsCache.length = neuron.weightsCache.length := by
  obtain ⟨net, hnet⟩ := Option.isSome_iff_exists.mp hnet
  obtain ⟨c, hc⟩ := cacheSlot_of_lt hwi
  refine ⟨_, adagrad_eq sqrt value dv hnet hc, ?_, ?_⟩
  · exact cachesLE_after hc (le_add_of_nonneg_right (sq_nonneg dv))
  · by_cases h : wi > -1 <;> simp [h]

/-- Along a sequence of in-range calls of `adagrad` no cache entry decreases. -/
theorem adagrad_run_mono (sqrt : α → α) {nets : List (Network α)}
    (calls : List (UpdateCall α)) :
    ∀ neuron : Neuron α,
      (∀ c ∈ calls, (Network.getInstance nets c.netInstance).isSome
        ∧ c.weightIndex < (neuron.weightsCache.length : Int)) →
      ∃ neuron', runUpdates (adagrad sqrt nets) neuron calls = some neuron'
        ∧ CachesLE neuron neuron' := by
  induction calls with
  | nil => intro neuron _; exact ⟨neuron, rfl, CachesLE.refl neuron⟩
  | cons c rest ih =>
    intro neuron hc
    obtain ⟨hnet, hwi⟩ := hc c (List.mem_cons_self _ _)
    obtain ⟨r, hr, hle, hlen⟩ := adagrad_step_mono sqrt c.value c.deltaValue hnet hwi
    obtain ⟨n', hn', hle'⟩ := ih r.2 (by
      intro c' hc'
      rw [hlen]
      exact hc c' (List.mem_cons_of_mem _ hc'))
    exact ⟨n', by simp [runUpdates, hr, hn'], hle.trans hle'⟩

theorem adadeltaSlot_after {neuron : Neuron α} {wi : Int} {a : α} (x y : α)
    (ha : adadeltaSlot neuron wi = some a) :
    adadeltaSlot
      (if wi > -1 then
        { neuron with
          weightsCache := neuron.weightsCache.set wi.toNat x
          adadeltaCache := neuron.adadeltaCache.set wi.toNat y }
      else { neuron with biasCache := x, adadeltaBiasCache := y }) wi = some y := by
  unfold adadeltaSlot at ha ⊢
  by_cases hwi : wi > -1
  · rw [if_pos hwi] at ha
    simp only [hwi, if_true]
    exact vecGet_set_same ha y
  · simp [hwi]

theorem cacheSlot_after_adadelta {neuron : Neuron α} {wi : Int} {c : α} (x y : α)
    (hc : cacheSlot neuron wi = some c) :
    cacheSlot
      (if wi > -1 then
        { neuron with
          weightsCache := neuron.weightsCache.set wi.toNat x
          adadeltaCache := neuron.adadeltaCache.set wi.toNat y }
      else { neuron with biasCache := x, adadeltaBiasCache := y }) wi = some x := by
  unfold cacheSlot at hc ⊢
  by_cases hwi : wi > -1
  · rw [if_pos hwi] at hc
    simp only [hwi, if_true]
    exact vecGet_set_same hc x
  · simp [hwi]

end Caches

/-! ## Powers and square roots in the bias corrections -/

theorem zpow_succ_eq_pow (b : ℝ) {t : Int} (ht : 0 ≤ t) :
    b ^ (t + 1) = b ^ (t.toNat + 1) := by
  rw [← zpow_natCast]
  congr 1
  push_cast
  rw [Int.toNat_of_nonneg ht]

theorem one_sub_pow_pos {b : ℝ} (h0 : 0 ≤ b) (h1 : b < 1) (n : Nat) :
    0 < 1 - b ^ (n + 1) :=
  sub_pos.mpr (pow_lt_one₀ h0 h1 (Nat.succ_ne_zero n))

theorem one_sub_zpow_neg_lt_zero {b : ℝ} (h0 : 0 < b) (h1 : b < 1) (n : Nat) (hn : n ≠ 0) :
    1 - b ^ (-(n : Int)) < 0 := by
  rw [zpow_neg, zpow_natCast]
  have hp : b ^ n < 1 := pow_lt_one₀ h0.le h1 hn
  have hpos : 0 < b ^ n := pow_pos h0 n
  have : 1 < (b ^ n)⁻¹ := (one_lt_inv₀ hpos).mpr hp
  linarith

theorem eps_add_sqrt_pos (x : ℝ) : 0 < 1e-6 + Real.sqrt x := by
  have h := Real.sqrt_nonneg x
  have h6 : (0 : ℝ) < 1e-6 := by norm_num
  linarith

theorem step_nonpos_of_neg_correction (a b c : ℝ) (ha : 0 < a) (hb : b < 0) (hc : 0 ≤ c) :
    0 + 1 * (a / b) / (c + 1e-6) ≤ 0 := by
  have h6 : (0 : ℝ) < 1e-6 := by norm_num
  have hd : 0 < c + 1e-6 := by linarith
  have hab : a / b < 0 := div_neg_of_pos_of_neg ha hb
  have h := div_neg_of_neg_of_pos hab hd
  have e : 0 + 1 * (a / b) / (c + 1e-6) = a / b / (c + 1e-6) := by ring
  rw [e]
  exact h.le

theorem step_pos_of_pos_correction (a b c : ℝ) (ha : 0 < a) (hb : 0 < b) (hc : 0 ≤ c) :
    0 < 0 + 1 * (a / b) / (c + 1e-6) := by
  have h6 : (0 : ℝ) < 1e-6 := by norm_num
  have hd : 0 < c + 1e-6 := by linarith
  have h := div_pos (div_pos ha hb) hd
  have e : 0 + 1 * (a / b) / (c + 1e-6) = a / b / (c + 1e-6) := by ring
  rw [e]
  exact h

/-! ## Theorems -/

/-- C1: for every real `x`, `sigmoid(x, prime=true)` equals `s * (1 - s)` where
`s = sigmoid(x, prime=false) = 1 / (1 + exp(-x))`, whatever neuron is passed. -/
theorem sigmoid_prime_identity (x : ℝ) (neuron neuron' : Neuron ℝ) :
    sigmoid Real.exp x true neuron
        = sigmoid Real.exp x false neuron' * (1 - sigmoid Real.exp x false neuron')
      ∧ sigmoid Real.exp x false neuron = 1 / (1 + Real.exp (-x)) := by
  simp [sigmoid]

/-- C2, as stated, fails: the vector `[1, -1]` is not all zeros, yet the total the first loop
accumulates is `0`, so `softmax` returns it unchanged and its entries sum to `0`, not `1`.  In
double arithmetic the same happens to `[2^54, 1, 1, -2^54]`, whose entries sum to `2`: the
total is rounded to `0`, and the entries of the result sum to `2`. -/
theorem softmax_sum_counterexample :
    ((∃ x ∈ ([1, -1] : List ℝ), x ≠ 0)
        ∧ softmax roundDouble ([1, -1] : List ℝ) = [1, -1]
        ∧ (softmax roundDouble ([1, -1] : List ℝ)).sum ≠ 1)
      ∧ (([18014398509481984, 1, 1, -18014398509481984] : List ℝ).sum ≠ 0
        ∧ softmax roundDouble ([18014398509481984, 1, 1, -18014398509481984] : List ℝ)
            = [18014398509481984, 1, 1, -18014398509481984]
        ∧ (softmax roundDouble
            ([18014398509481984, 1, 1, -18014398509481984] : List ℝ)).sum ≠ 1) := by
  have ht : softmaxTotal roundDouble ([1, -1] : List ℝ) = 0 := by
    simp only [softmaxTotal, List.foldl, zero_add]
    rw [roundDouble_one, add_neg_cancel, roundDouble_zero]
  have h : softmax roundDouble ([1, -1] : List ℝ) = [1, -1] := by
    unfold softmax
    rw [softmaxTraced_of_total_zero _ _ ht]
  have h2 : softmax roundDouble ([18014398509481984, 1, 1, -18014398509481984] : List ℝ)
      = [18014398509481984, 1, 1, -18014398509481984] := by
    unfold softmax
    rw [softmaxTraced_of_total_zero _ _ softmaxTotal_cancelled]
  refine ⟨⟨⟨1, by simp, by norm_num⟩, h, ?_⟩, by norm_num, h2, ?_⟩
  · rw [h]
    norm_num
  · rw [h2]
    norm_num

/-- C2, amended: for every vector `v` of at most `2^20` doubles, each `0` or within
`[2^-400, 2^400]` and not all `0`, the total the first loop accumulates is positive, every
entry of `softmax(v)` is the rounded quotient `v[i] / total`, and the entries of `softmax(v)`
sum to `1` up to `(n + 1) * 2^-52`, which is below `1e-9`; every operation is rounded as a
`double` operation.  The bounds on the entries and on the length keep every intermediate
result within the normal doubles, where `roundDouble` is the rounding of the hardware. -/
theorem softmax_sum_near_one (v : List ℝ) (hlen : v.length ≤ 1048576)
    (hdbl : ∀ x ∈ v, roundDouble x = x)
    (hrange : ∀ x ∈ v, x = 0 ∨ ((2 : ℝ) ^ (-400 : Int) ≤ x ∧ x ≤ (2 : ℝ) ^ (400 : Int)))
    (hne : ∃ x ∈ v, x ≠ 0) :
    0 < softmaxTotal roundDouble v
      ∧ softmax roundDouble v
          = v.map (fun x => roundDouble (x / softmaxTotal roundDouble v))
      ∧ |(softmax roundDouble v).sum - 1| ≤ ((v.length : ℝ) + 1) * 2 ^ (-52 : Int)
      ∧ |(softmax roundDouble v).sum - 1| ≤ 1e-9 := by
  have hnn : ∀ x ∈ v, 0 ≤ x := nonneg_of_range hrange
  have hS : 0 < v.sum := sum_pos_of_range hrange hne
  obtain ⟨hT, he, y1, y2⟩ := softmax_round_bounds v hnn hS hlen
  have hn1 : (v.length : ℝ) ≤ 1048576 := by exact_mod_cast hlen
  have e52 : (2 : ℝ) ^ (-52 : Int) = 2 * 2 ^ (-53 : Int) := by norm_num
  have hu : (0 : ℝ) ≤ 2 ^ (-53 : Int) := (zpow_pos (by norm_num) _).le
  have hsmall : (1048576 + 1) * (2 * (2 : ℝ) ^ (-53 : Int)) ≤ 1e-9 := by norm_num
  have hb : |(softmax roundDouble v).sum - 1| ≤ ((v.length : ℝ) + 1) * 2 ^ (-52 : Int) := by
    rw [e52, abs_le]
    generalize (2 : ℝ) ^ (-53 : Int) = u at *
    have := mul_nonneg (Nat.cast_nonneg v.length : (0 : ℝ) ≤ v.length) hu
    constructor <;> nlinarith
  refine ⟨hT, he, hb, le_trans hb ?_⟩
  rw [e52]
  refine le_trans ?_ hsmall
  exact mul_le_mul_of_nonneg_right (by linarith) (by linarith)

theorem softmax_sum_near_one_witness :
    0 < softmaxTotal roundDouble ([1, 3] : List ℝ)
      ∧ softmax roundDouble ([1, 3] : List ℝ)
          = ([1, 3] : List ℝ).map
              (fun x => roundDouble (x / softmaxTotal roundDouble ([1, 3] : List ℝ)))
      ∧ |(softmax roundDouble ([1, 3] : List ℝ)).sum - 1|
          ≤ ((([1, 3] : List ℝ).length : ℝ) + 1) * 2 ^ (-52 : Int)
      ∧ |(softmax roundDouble ([1, 3] : List ℝ)).sum - 1| ≤ 1e-9 :=
  softmax_sum_near_one [1, 3] (by simp)
    (by
      intro x hx
      simp only [List.mem_cons, List.mem_singleton, List.not_mem_nil, or_false] at hx
      rcases hx with rfl | rfl
      · exact roundDouble_one
      · exact roundDouble_three)
    (by
      intro x hx
      simp only [List.mem_cons, List.mem_singleton, List.not_mem_nil, or_false] at hx
      rcases hx with rfl | rfl <;> right <;> norm_num)
    ⟨1, by simp, by norm_num⟩

/-- C3, as stated, fails in double arithmetic: the entries of `[2^54, 1, -2^54, -1]` sum to
exactly `0`, but the total the first loop accumulates is `-1`, because the addition of `1` to
`2^54` is absorbed by the rounding.  All four entries are divided and the vector returned is
`[-2^54, -1, 2^54, 1]`. -/
theorem softmax_zero_sum_counterexample :
    ([18014398509481984, 1, -18014398509481984, -1] : List ℝ).sum = 0
      ∧ softmaxTotal roundDouble ([18014398509481984, 1, -18014398509481984, -1] : List ℝ)
          = -1
      ∧ softmaxTraced roundDouble ([18014398509481984, 1, -18014398509481984, -1] : List ℝ)
          = ([-18014398509481984, -1, 18014398509481984, 1], 4)
      ∧ softmax roundDouble ([18014398509481984, 1, -18014398509481984, -1] : List ℝ)
          ≠ [18014398509481984, 1, -18014398509481984, -1] := by
  have ht : softmaxTotal roundDouble
      ([18014398509481984, 1, -18014398509481984, -1] : List ℝ) = -1 := by
    simp only [softmaxTotal, List.foldl, zero_add]
    rw [roundDouble_two_pow_54, roundDouble_two_pow_54_succ, add_neg_cancel, roundDouble_zero,
      zero_add, roundDouble_neg, roundDouble_one]
  have hs : softmaxTraced roundDouble
      ([18014398509481984, 1, -18014398509481984, -1] : List ℝ)
        = ([-18014398509481984, -1, 18014398509481984, 1], 4) := by
    rw [softmaxTraced_of_total_ne_zero _ _ (by rw [ht]; norm_num), ht]
    simp only [List.map, div_neg, div_one, neg_neg, roundDouble_neg, roundDouble_two_pow_54,
      roundDouble_one, List.length]
  refine ⟨by norm_num, ht, hs, ?_⟩
  unfold softmax
  rw [hs]
  norm_num

/-- C3, amended: for every vector `v` (the empty one included) for which the total that the
first loop accumulates is exactly `0`, `softmax(v)` returns `v` unchanged and executes no
division, whatever the rounding `fl` of the arithmetic. -/
theorem softmax_zero_total_unchanged (fl : ℝ → ℝ) (v : List ℝ)
    (h : softmaxTotal fl v = 0) : softmax fl v = v ∧ (softmaxTraced fl v).2 = 0 := by
  unfold softmax
  rw [softmaxTraced_of_total_zero fl v h]
  exact ⟨rfl, rfl⟩

theorem softmax_zero_total_unchanged_witness :
    softmaxTotal roundDouble ([18014398509481984, 1, 1, -18014398509481984] : List ℝ) = 0
      ∧ softmax roundDouble ([18014398509481984, 1, 1, -18014398509481984] : List ℝ)
          = [18014398509481984, 1, 1, -18014398509481984]
      ∧ (softmaxTraced roundDouble
          ([18014398509481984, 1, 1, -18014398509481984] : List ℝ)).2 = 0 :=
  ⟨softmaxTotal_cancelled,
    softmax_zero_total_unchanged roundDouble [18014398509481984, 1, 1, -18014398509481984]
      softmaxTotal_cancelled⟩

/-- C4: for every value, gradient, learning rate and in-range slot holding the gain `g`,
`gain` returns `newVal = value + learningRate * deltaValue * g`; afterwards the slot holds
`max (0.95 * g) 0.5` if the sign flipped (`newVal <= 0` and `value > 0`, or `newVal >= 0` and
`value < 0`) and `min (g + 0.05) 5` otherwise, in particular whenever `value = 0`. -/
theorem gain_update (nets : List (Network ℝ)) (ni : Int) (net : Network ℝ) (value dv : ℝ)
    (neuron : Neuron ℝ) (wi : Int) (g : ℝ)
    (hnet : Network.getInstance nets ni = some net) (hg : gainSlot neuron wi = some g) :
    ∃ neuron', gain nets ni value dv neuron wi
        = some (value + net.learningRate * dv * g, neuron')
      ∧ gainSlot neuron' wi
        = some (if (value + net.learningRate * dv * g ≤ 0 ∧ value > 0)
                  ∨ (value + net.learningRate * dv * g ≥ 0 ∧ value < 0)
                then max (0.95 * g) 0.5 else min (g + 0.05) 5)
      ∧ (value = 0 → gainSlot neuron' wi = some (min (g + 0.05) 5)) := by
  refine ⟨_, gain_eq value dv hnet hg, ?_, ?_⟩
  · rw [gainSlot_after _ hg, mul_comm g 0.95]
  · intro hv
    rw [gainSlot_after _ hg]
    simp [hv]

theorem gain_update_witness :
    ∃ neuron', gain [⟨0, 1, 0, 0, 0⟩] 0 1 (-2)
          (⟨[1], [0], [0], 0, 0, 0, 0, 1, 0, 0, 0, 0, false⟩ : Neuron ℝ) 0
        = some (1 + 1 * (-2) * 1, neuron')
      ∧ gainSlot neuron' 0
        = some (if (1 + 1 * (-2) * 1 ≤ (0 : ℝ) ∧ (1 : ℝ) > 0)
                  ∨ (1 + 1 * (-2) * 1 ≥ (0 : ℝ) ∧ (1 : ℝ) < 0)
                then max (0.95 * 1) 0.5 else min (1 + 0.05) 5)
      ∧ ((1 : ℝ) = 0 → gainSlot neuron' 0 = some (min (1 + 0.05) 5)) :=
  gain_update [⟨0, 1, 0, 0, 0⟩] 0 ⟨0, 1, 0, 0, 0⟩ 1 (-2)
    ⟨[1], [0], [0], 0, 0, 0, 0, 1, 0, 0, 0, 0, false⟩ 0 1 rfl rfl

/-- C5: the gain bounds are an invariant of `gain`.  If every gain slot of a neuron (`biasGain`
and each `weightGain[i]`) lies in `[0.5, 5.0]`, then after one call with an in-range
`weightIndex`, and after any finite sequence of such calls, every gain slot lies in
`[0.5, 5.0]`, for every value, gradient and learning rate. -/
theorem gain_bounds_invariant (nets : List (Network ℝ)) (neuron : Neuron ℝ)
    (ni : Int) (value dv : ℝ) (wi : Int) (calls : List (UpdateCall ℝ))
    (hb : GainsBounded neuron)
    (hnet : (Network.getInstance nets ni).isSome)
    (hwi : wi < (neuron.weightGain.length : Int))
    (hcalls : ∀ c ∈ calls, (Network.getInstance nets c.netInstance).isSome
      ∧ c.weightIndex < (neuron.weightGain.length : Int)) :
    (∃ r, gain nets ni value dv neuron wi = some r ∧ GainsBounded r.2)
      ∧ ∃ neuron', runUpdates (gain nets) neuron calls = some neuron'
          ∧ GainsBounded neuron' := by
  obtain ⟨r, hr, hrb, _⟩ := gain_step_bounded value dv hb hnet hwi
  exact ⟨⟨r, hr, hrb⟩, gain_run_bounded calls neuron hb hcalls⟩

theorem gain_bounds_invariant_witness :
    (∃ r, gain [⟨0, 1, 0, 0, 0⟩] 0 1 (-2)
          (⟨[1], [0], [0], 0, 0, 0, 0, 5, 0, 0, 0, 0, false⟩ : Neuron ℝ) (-1) = some r
        ∧ GainsBounded r.2)
      ∧ ∃ neuron', runUpdates (gain [⟨0, 1, 0, 0, 0⟩])
            (⟨[1], [0], [0], 0, 0, 0, 0, 5, 0, 0, 0, 0, false⟩ : Neuron ℝ)
            [⟨0, 1, -2, 0⟩, ⟨0, 3, 1, -1⟩] = some neuron'
          ∧ GainsBounded neuron' :=
  gain_bounds_invariant [⟨0, 1, 0, 0, 0⟩]
    ⟨[1], [0], [0], 0, 0, 0, 0, 5, 0, 0, 0, 0, false⟩ 0 1 (-2) (-1)
    [⟨0, 1, -2, 0⟩, ⟨0, 3, 1, -1⟩]
    (by norm_num [GainsBounded]) rfl (by norm_num)
    (by simp [Network.getInstance])

/-- C6: for every value, gradient `g`, learning rate and in-range slot with prior cache `c`,
`adagrad` sets the selected cache slot to `c + g^2` and returns
`value + learningRate * g / (1e-6 + sqrt (c + g^2))`: the step uses the updated cache. -/
theorem adagrad_update (nets : List (Network ℝ)) (ni : Int) (net : Network ℝ) (value g : ℝ)
    (neuron : Neuron ℝ) (wi : Int) (c : ℝ)
    (hnet : Network.getInstance nets ni = some net) (hc : cacheSlot neuron wi = some c) :
    ∃ neuron', adagrad Real.sqrt nets ni value g neuron wi
        = some (value + net.learningRate * g / (1e-6 + Real.sqrt (c + g ^ 2)), neuron')
      ∧ cacheSlot neuron' wi = some (c + g ^ 2) :=
  ⟨_, adagrad_eq Real.sqrt value g hnet hc, cacheSlot_after _ hc⟩

theorem adagrad_update_witness :
    ∃ neuron', adagrad Real.sqrt [⟨0, 1, 0, 0, 0⟩] 0 1 3
          (⟨[1], [7], [0], 0, 0, 0, 0, 1, 0, 0, 0, 0, false⟩ : Neuron ℝ) 0
        = some (1 + 1 * 3 / (1e-6 + Real.sqrt (7 + 3 ^ 2)), neuron')
      ∧ cacheSlot neuron' 0 = some (7 + 3 ^ 2) :=
  adagrad_update [⟨0, 1, 0, 0, 0⟩] 0 ⟨0, 1, 0, 0, 0⟩ 1 3
    ⟨[1], [7], [0], 0, 0, 0, 0, 1, 0, 0, 0, 0, false⟩ 0 7 rfl rfl

/-- C7: the Adagrad caches never decrease.  For every neuron state, gradient and in-range
`weightIndex`, each cache entry (`biasCache` and every `weightsCache[i]`) after a call of
`adagrad` is at least its value before the call, and so along any finite sequence of calls. -/
theorem adagrad_cache_monotone (nets : List (Network ℝ)) (neuron : Neuron ℝ)
    (ni : Int) (value g : ℝ) (wi : Int) (calls : List (UpdateCall ℝ))
    (hnet : (Network.getInstance nets ni).isSome)
    (hwi : wi < (neuron.weightsCache.length : Int))
    (hcalls : ∀ c ∈ calls, (Network.getInstance nets c.netInstance).isSome
      ∧ c.weightIndex < (neuron.weightsCache.length : Int)) :
    (∃ r, adagrad Real.sqrt nets ni value g neuron wi = some r ∧ CachesLE neuron r.2)
      ∧ ∃ neuron', runUpdates (adagrad Real.sqrt nets) neuron calls = some neuron'
          ∧ CachesLE neuron neuron' := by
  obtain ⟨r, hr, hle, _⟩ := adagrad_step_mono Real.sqrt value g hnet hwi
  exact ⟨⟨r, hr, hle⟩, adagrad_run_mono Real.sqrt calls neuron hcalls⟩

theorem adagrad_cache_monotone_witness :
    (∃ r, adagrad Real.sqrt [⟨0, 1, 0, 0, 0⟩] 0 1 (-2)
          (⟨[1], [-4], [0], 0, 0, 0, 0, 1, 0, -1, 0, 0, false⟩ : Neuron ℝ) 0 = some r
        ∧ CachesLE (⟨[1], [-4], [0], 0, 0, 0, 0, 1, 0, -1, 0, 0, false⟩ : Neuron ℝ) r.2)
      ∧ ∃ neuron', runUpdates (adagrad Real.sqrt [⟨0, 1, 0, 0, 0⟩])
            (⟨[1], [-4], [0], 0, 0, 0, 0, 1, 0, -1, 0, 0, false⟩ : Neuron ℝ)
            [⟨0, 1, -2, 0⟩, ⟨0, 3, 1, -1⟩] = some neuron'
          ∧ CachesLE (⟨[1], [-4], [0], 0, 0, 0, 0, 1, 0, -1, 0, 0, false⟩ : Neuron ℝ) neuron' :=
  adagrad_cache_monotone [⟨0, 1, 0, 0, 0⟩]
    ⟨[1], [-4], [0], 0, 0, 0, 0, 1, 0, -1, 0, 0, false⟩ 0 1 (-2) 0
    [⟨0, 1, -2, 0⟩, ⟨0, 3, 1, -1⟩]
    rfl (by norm_num) (by simp [Network.getInstance])

/-- C8: for every value, gradient `g`, learning rate, `rmsDecay` `d` and in-range slot with
prior cache `c`, `rmsprop` sets the selected cache slot to `c' = d * c + (1 - d) * g^2` and
returns `value + learningRate * g / (1e-6 + sqrt c')`. -/
theorem rmsprop_update (nets : List (Network ℝ)) (ni : Int) (net : Network ℝ) (value g : ℝ)
    (neuron : Neuron ℝ) (wi : Int) (c : ℝ)
    (hnet : Network.getInstance nets ni = some net) (hc : cacheSlot neuron wi = some c) :
    ∃ neuron', rmsprop Real.sqrt nets ni value g neuron wi
        = some (value + net.learningRate * g
            / (1e-6 + Real.sqrt (net.rmsDecay * c + (1 - net.rmsDecay) * g ^ 2)), neuron')
      ∧ cacheSlot neuron' wi = some (net.rmsDecay * c + (1 - net.rmsDecay) * g ^ 2) :=
  ⟨_, rmsprop_eq Real.sqrt value g hnet hc, cacheSlot_after _ hc⟩

theorem rmsprop_update_witness :
    ∃ neuron', rmsprop Real.sqrt [⟨0, 1, 0, 0.9, 0⟩] 0 1 3
          (⟨[1], [7], [0], 0, 0, 0, 0, 1, 0, 2, 0, 0, false⟩ : Neuron ℝ) (-1)
        = some (1 + 1 * 3 / (1e-6 + Real.sqrt (0.9 * 2 + (1 - 0.9) * 3 ^ 2)), neuron')
      ∧ cacheSlot neuron' (-1) = some (0.9 * 2 + (1 - 0.9) * 3 ^ 2) :=
  rmsprop_update [⟨0, 1, 0, 0.9, 0⟩] 0 ⟨0, 1, 0, 0.9, 0⟩ 1 3
    ⟨[1], [7], [0], 0, 0, 0, 0, 1, 0, 2, 0, 0, false⟩ (-1) 2 rfl rfl

/-- C9, as stated, fails at the last iteration count a 32-bit `int` holds: with
`iterations = 2147483647` the sum `iterations + 1` wraps to `-2147483648`, both bias
corrections `1 - 0.9^(-2147483648)` and `1 - 0.999^(-2147483648)` are negative, and from
`m = v = 0`, gradient `1`, learning rate `1` and value `0` the value returned is not above `0`,
whereas the claimed `value + learningRate * mhat / (sqrt vhat + 1e-6)` with
`mhat = m' / (1 - 0.9^(t+1))` is positive. -/
theorem adam_iterations_overflow_counterexample :
    ∃ x, (adam Real.sqrt [⟨2147483647, 1, 0, 0, 0⟩] 0 0 1
          (⟨[1], [0], [0], 0, 0, 0, 0, 1, 0, 0, 0, 0, false⟩ : Neuron ℝ) 0).map Prod.fst
        = some x
      ∧ x ≤ 0
      ∧ (0 : ℝ) < 0 + 1
          * ((0.9 * 0 + 0.1 * 1) / (1 - (0.9 : ℝ) ^ ((2147483647 : Int).toNat + 1)))
          / (Real.sqrt ((0.999 * 0 + 0.001 * 1 ^ 2)
              / (1 - (0.999 : ℝ) ^ ((2147483647 : Int).toNat + 1))) + 1e-6) := by
  have hnet : Network.getInstance ([⟨2147483647, 1, 0, 0, 0⟩] : List (Network ℝ)) 0
      = some ⟨2147483647, 1, 0, 0, 0⟩ := rfl
  have hw : wrapInt32 ((2147483647 : Int) + 1) = -((2147483648 : Nat) : Int) := by decide
  refine ⟨_, by rw [adam_eq Real.sqrt 0 1 _ 0 hnet]; rfl, ?_, ?_⟩
  · show (0 : ℝ) + 1 * ((0.9 * 0 + (1 - 0.9) * 1)
        / (1 - (0.9 : ℝ) ^ wrapInt32 ((2147483647 : Int) + 1)))
      / (Real.sqrt ((0.999 * 0 + (1 - 0.999) * 1 ^ 2)
        / (1 - (0.999 : ℝ) ^ wrapInt32 ((2147483647 : Int) + 1))) + 1e-6) ≤ 0
    rw [hw]
    exact step_nonpos_of_neg_correction _ _ _ (by norm_num)
      (one_sub_zpow_neg_lt_zero (by norm_num) (by norm_num) 2147483648 (by norm_num))
      (Real.sqrt_nonneg _)
  · exact step_pos_of_pos_correction _ _ _ (by norm_num)
      (one_sub_pow_pos (by norm_num) (by norm_num) _) (Real.sqrt_nonneg _)

/-- C9, amended: for every value, gradient `g`, learning rate, prior moments `(m, v)` and
iteration count `t` with `0 <= t < 2147483647` (so that the 32-bit sum `iterations + 1` does
not overflow), `adam` sets `m' = 0.9 * m + 0.1 * g` and `v' = 0.999 * v + 0.001 * g^2`,
bias-corrects them as `mhat = m' / (1 - 0.9^(t+1))` and `vhat = v' / (1 - 0.999^(t+1))` with
the network's iteration counter `t`, and returns
`value + learningRate * mhat / (sqrt vhat + 1e-6)`. -/
theorem adam_update (nets : List (Network ℝ)) (ni : Int) (net : Network ℝ) (value g : ℝ)
    (neuron : Neuron ℝ) (wi : Int)
    (hnet : Network.getInstance nets ni = some net) (ht : 0 ≤ net.iterations)
    (hmax : net.iterations < 2147483647) :
    ∃ neuron', adam Real.sqrt nets ni value g neuron wi
        = some (value + net.learningRate
              * (neuron'.m / (1 - (0.9 : ℝ) ^ (net.iterations.toNat + 1)))
              / (Real.sqrt (neuron'.v / (1 - (0.999 : ℝ) ^ (net.iterations.toNat + 1))) + 1e-6),
            neuron')
      ∧ neuron'.m = 0.9 * neuron.m + 0.1 * g
      ∧ neuron'.v = 0.999 * neuron.v + 0.001 * g ^ 2 := by
  have hpow : ∀ b : ℝ, b ^ (net.iterations + 1) = b ^ (net.iterations.toNat + 1) :=
    fun b => zpow_succ_eq_pow b ht
  refine ⟨{ neuron with
      m := 0.9 * neuron.m + (1 - 0.9) * g
      v := 0.999 * neuron.v + (1 - 0.999) * g ^ 2 }, ?_, ?_, ?_⟩
  · rw [adam_eq_in_range Real.sqrt value g neuron wi hnet (by omega) hmax, hpow, hpow]
  · norm_num
  · norm_num

theorem adam_update_witness :
    ∃ neuron', adam Real.sqrt [⟨2, 1, 0, 0, 0⟩] 0 1 3
          (⟨[1], [7], [0], 0, 0, 0, 0, 1, 0, 2, 4, 5, false⟩ : Neuron ℝ) 0
        = some (1 + 1 * (neuron'.m / (1 - (0.9 : ℝ) ^ ((2 : Int).toNat + 1)))
              / (Real.sqrt (neuron'.v / (1 - (0.999 : ℝ) ^ ((2 : Int).toNat + 1))) + 1e-6),
            neuron')
      ∧ neuron'.m = 0.9 * 4 + 0.1 * 3
      ∧ neuron'.v = 0.999 * 5 + 0.001 * 3 ^ 2 :=
  adam_update [⟨2, 1, 0, 0, 0⟩] 0 ⟨2, 1, 0, 0, 0⟩ 1 3
    ⟨[1], [7], [0], 0, 0, 0, 0, 1, 0, 2, 4, 5, false⟩ 0 rfl (by decide) (by decide)

/-- C10: for every value, gradient `g`, `rho` and in-range slot with prior cache `c` and
auxiliary cache `a`, `adadelta` sets the cache to `c' = rho * c + (1 - rho) * g^2`, returns
`value + sqrt ((a + 1e-6) / (c' + 1e-6)) * g`, computed with the old auxiliary cache `a` and
the new cache `c'`, and sets the auxiliary cache to `rho * a + (1 - rho) * g^2`; the weight
slots (`weightIndex > -1`) and the bias slots follow this same recurrence. -/
theorem adadelta_update (nets : List (Network ℝ)) (ni : Int) (net : Network ℝ) (value g : ℝ)
    (neuron : Neuron ℝ) (wi : Int) (c a : ℝ)
    (hnet : Network.getInstance nets ni = some net) (hc : cacheSlot neuron wi = some c)
    (ha : adadeltaSlot neuron wi = some a) :
    ∃ neuron', adadelta Real.sqrt nets ni value g neuron wi
        = some (value
            + Real.sqrt ((a + 1e-6) / (net.rho * c + (1 - net.rho) * g ^ 2 + 1e-6)) * g,
            neuron')
      ∧ cacheSlot neuron' wi = some (net.rho * c + (1 - net.rho) * g ^ 2)
      ∧ adadeltaSlot neuron' wi = some (net.rho * a + (1 - net.rho) * g ^ 2) :=
  ⟨_, adadelta_eq Real.sqrt value g hnet hc ha, cacheSlot_after_adadelta _ _ hc,
    adadeltaSlot_after _ _ ha⟩

theorem adadelta_update_witness :
    ∃ neuron', adadelta Real.sqrt [⟨0, 1, 0, 0, 0.95⟩] 0 1 3
          (⟨[1], [7], [6], 0, 0, 0, 0, 1, 0, 2, 0, 0, false⟩ : Neuron ℝ) 0
        = some (1 + Real.sqrt ((6 + 1e-6) / (0.95 * 7 + (1 - 0.95) * 3 ^ 2 + 1e-6)) * 3,
            neuron')
      ∧ cacheSlot neuron' 0 = some (0.95 * 7 + (1 - 0.95) * 3 ^ 2)
      ∧ adadeltaSlot neuron' 0 = some (0.95 * 6 + (1 - 0.95) * 3 ^ 2) :=
  adadelta_update [⟨0, 1, 0, 0, 0.95⟩] 0 ⟨0, 1, 0, 0, 0.95⟩ 1 3
    ⟨[1], [7], [6], 0, 0, 0, 0, 1, 0, 2, 0, 0, false⟩ 0 7 6 rfl rfl rfl

/-! ## Vanilla update and cost functions -/

section Costs

variable {α : Type} [LinearOrderedField α]

theorem meansquarederrorLoop_eq (calculated : List α) :
    ∀ (desired : List α) (error : α), calculated.length = desired.length →
      meansquarederrorLoop calculated desired error
        = some (error + (List.zipWith (fun c d => (c - d) ^ 2) calculated desired).sum) := by
  induction calculated with
  | nil => intro desired error _; simp [meansquarederrorLoop]
  | cons c rest ih =>
    intro desired error hlen
    cases desired with
    | nil => simp at hlen
    | cons d ds =>
      simp only [List.length_cons, Nat.add_right_cancel_iff] at hlen
      simp [meansquarederrorLoop, ih ds _ hlen, add_assoc]

theorem crossentropyLoop_eq (log : α → α) (target : List α) :
    ∀ (output : List α) (error : α), target.length = output.length →
      crossentropyLoop log target output error
        = some (error - (List.zipWith
            (fun t o => t * log (o + 1e-15) + (1 - t) * log (1 + 1e-15 - o))
            target output).sum) := by
  induction target with
  | nil => intro output error _; simp [crossentropyLoop]
  | cons t rest ih =>
    intro output error hlen
    cases output with
    | nil => simp at hlen
    | cons o os =>
      simp only [List.length_cons, Nat.add_right_cancel_iff] at hlen
      simp [crossentropyLoop, ih os _ hlen, sub_sub]

end Costs

/-- C11: the vanilla update rule returns `value + learningRate * deltaValue` for every value
and gradient, where `learningRate` is that of the network instance addressed by
`netInstance`, and it changes no state: the registry of instances is as it was. -/
theorem vanillaupdatefn_update (nets : List (Network ℝ)) (ni : Int) (net : Network ℝ)
    (value dv : ℝ) (hnet : Network.getInstance nets ni = some net) :
    vanillaupdatefn nets ni value dv = some (value + net.learningRate * dv)
      ∧ vanillaupdatefnState nets ni value dv
          = some (value + net.learningRate * dv, nets) := by
  simp [vanillaupdatefn, vanillaupdatefnState, hnet]

theorem vanillaupdatefn_update_witness :
    vanillaupdatefn ([⟨0, 1, 0, 0, 0⟩, ⟨0, 2, 0, 0, 0⟩] : List (Network ℝ)) 1 5 3
        = some (5 + 2 * 3)
      ∧ vanillaupdatefnState ([⟨0, 1, 0, 0, 0⟩, ⟨0, 2, 0, 0, 0⟩] : List (Network ℝ)) 1 5 3
          = some (5 + 2 * 3, [⟨0, 1, 0, 0, 0⟩, ⟨0, 2, 0, 0, 0⟩]) :=
  vanillaupdatefn_update [⟨0, 1, 0, 0, 0⟩, ⟨0, 2, 0, 0, 0⟩] 1 ⟨0, 2, 0, 0, 0⟩ 5 3 rfl

/-- C12: for every pair of equal-length, non-empty vectors `(calculated, desired)` of length
`n`, `meansquarederror` returns `(1/n) * sum over v of (calculated[v] - desired[v])^2`. -/
theorem meansquarederror_eq (calculated desired : List ℝ)
    (hlen : calculated.length = desired.length) (hne : calculated ≠ []) :
    meansquarederror calculated desired
      = some (1 / (calculated.length : ℝ)
          * (List.zipWith (fun c d => (c - d) ^ 2) calculated desired).sum) := by
  simp only [meansquarederror, meansquarederrorLoop_eq calculated desired 0 hlen,
    Option.pure_def, Option.bind_eq_bind, Option.some_bind, zero_add]
  congr 1
  ring

theorem meansquarederror_eq_witness :
    meansquarederror ([1, 3] : List ℝ) [0, 1]
      = some (1 / ((([1, 3] : List ℝ).length : ℕ) : ℝ)
          * (List.zipWith (fun c d => (c - d) ^ 2) ([1, 3] : List ℝ) [0, 1]).sum) :=
  meansquarederror_eq [1, 3] [0, 1] rfl (by simp)

theorem cacheDivisor_pos {x : ℝ} (hx : 0 ≤ x) :
    cacheDivisor Real.sqrt x = some (1e-6 + Real.sqrt x) ∧ 0 < 1e-6 + Real.sqrt x := by
  refine ⟨?_, eps_add_sqrt_pos x⟩
  simp [cacheDivisor, sqrtChecked, hx]

theorem momentDivisor_pos {x : ℝ} (hx : 0 ≤ x) :
    momentDivisor Real.sqrt x = some (Real.sqrt x + 1e-6) ∧ Real.sqrt x + 1e-6 ≠ 0 := by
  refine ⟨by simp [momentDivisor, sqrtChecked, hx], ?_⟩
  have h := eps_add_sqrt_pos x
  rw [add_comm] at h
  exact h.ne'

theorem decayed_cache_bounds {d c g : ℝ} (hd0 : 0 ≤ d) (hd1 : d ≤ 1) (hc : 0 ≤ c) :
    0 ≤ d * c + (1 - d) * g ^ 2 := by
  have h1 : 0 ≤ 1 - d := by linarith
  have := mul_nonneg hd0 hc
  have := mul_nonneg h1 (sq_nonneg g)
  linarith

/-- C14, as stated, fails when the cache that reaches `sqrt` is negative: C's `sqrt` has no
value there (it returns NaN), so the divisor `1e-6 + sqrt(cache)` is not a positive number.
`adagrad` with prior cache `-20` and gradient `2` leaves the cache `-16`; `rmsprop` with
`rmsDecay = 2` leaves the cache `-1` from a fresh cache `0` and gradient `1`. -/
theorem optimizer_divisors_counterexample :
    (∃ r, adagrad Real.sqrt [⟨0, 1, 0, 2, 0⟩] 0 1 2
          (⟨[1], [-20], [0], 0, 0, 0, 0, 1, 0, 0, 0, 0, false⟩ : Neuron ℝ) 0 = some r
        ∧ cacheSlot r.2 0 = some (-20 + 2 ^ 2)
        ∧ cacheDivisor Real.sqrt (-20 + 2 ^ 2 : ℝ) = none)
      ∧ ∃ r, rmsprop Real.sqrt [⟨0, 1, 0, 2, 0⟩] 0 1 1
          (⟨[1], [0], [0], 0, 0, 0, 0, 1, 0, 0, 0, 0, false⟩ : Neuron ℝ) 0 = some r
        ∧ cacheSlot r.2 0 = some (2 * 0 + (1 - 2) * 1 ^ 2)
        ∧ cacheDivisor Real.sqrt (2 * 0 + (1 - 2) * 1 ^ 2 : ℝ) = none := by
  have hnet : Network.getInstance ([⟨0, 1, 0, 2, 0⟩] : List (Network ℝ)) 0
      = some ⟨0, 1, 0, 2, 0⟩ := rfl
  refine ⟨⟨_, adagrad_eq Real.sqrt 1 2 hnet rfl, cacheSlot_after _ rfl, ?_⟩,
    ⟨_, rmsprop_eq Real.sqrt 1 1 hnet rfl, cacheSlot_after _ rfl, ?_⟩⟩
  · have h : ¬ (0 : ℝ) ≤ -20 + 2 ^ 2 := by norm_num
    simp [cacheDivisor, sqrtChecked, h]
  · have h : ¬ (0 : ℝ) ≤ 2 * 0 + (1 - 2) * 1 ^ 2 := by norm_num
    simp [cacheDivisor, sqrtChecked, h]

/-- C14, amended: no optimizer recurrence divides by zero as long as the cache that reaches
`sqrt` is non-negative and nothing overflows.  For every value, gradient `g` and in-range slot
with prior cache `c >= 0`: the divisor `1e-6 + sqrt(cache)` of `adagrad` is strictly positive;
so is that of `rmsprop` whenever `0 <= rmsDecay <= 1`, `c <= 1e300` and `|g| <= 1e150`; in
`adam`, for every iteration count `0 <= t < 2147483647` and prior second moment `v >= 0`, the
divisors `1 - 0.9^(t+1)`, `1 - 0.999^(t+1)` and `sqrt(vhat) + 1e-6` are nonzero; in `adadelta`,
whenever `0 <= rho <= 1`, `c <= 1e300` and `|g| <= 1e150`, the divisor `cache + 1e-6` is
strictly positive.  Each divisor is shown in the value the rule returns. -/
theorem optimizer_divisors_nonzero (nets : List (Network ℝ)) (ni : Int) (net : Network ℝ)
    (value g : ℝ) (neuron : Neuron ℝ) (wi : Int) (c : ℝ)
    (hnet : Network.getInstance nets ni = some net) (hc : cacheSlot neuron wi = some c)
    (hc0 : 0 ≤ c) :
    (∃ neuron' d, adagrad Real.sqrt nets ni value g neuron wi
          = some (value + net.learningRate * g / d, neuron')
        ∧ cacheSlot neuron' wi = some (c + g ^ 2)
        ∧ cacheDivisor Real.sqrt (c + g ^ 2) = some d ∧ 0 < d)
      ∧ (0 ≤ net.rmsDecay → net.rmsDecay ≤ 1 → c ≤ 1e300 → |g| ≤ 1e150 →
          ∃ neuron' d, rmsprop Real.sqrt nets ni value g neuron wi
            = some (value + net.learningRate * g / d, neuron')
          ∧ cacheSlot neuron' wi = some (net.rmsDecay * c + (1 - net.rmsDecay) * g ^ 2)
          ∧ cacheDivisor Real.sqrt (net.rmsDecay * c + (1 - net.rmsDecay) * g ^ 2) = some d
          ∧ 0 < d)
      ∧ (0 ≤ net.iterations → net.iterations < 2147483647 → 0 ≤ neuron.v →
          ∃ neuron' d, adam Real.sqrt nets ni value g neuron wi
            = some (value + net.learningRate
                  * (neuron'.m / (1 - (0.9 : ℝ) ^ (net.iterations + 1))) / d, neuron')
          ∧ 1 - (0.9 : ℝ) ^ (net.iterations + 1) ≠ 0
          ∧ 1 - (0.999 : ℝ) ^ (net.iterations + 1) ≠ 0
          ∧ momentDivisor Real.sqrt (neuron'.v / (1 - (0.999 : ℝ) ^ (net.iterations + 1)))
              = some d
          ∧ d ≠ 0)
      ∧ (∀ a : ℝ, adadeltaSlot neuron wi = some a → 0 ≤ net.rho → net.rho ≤ 1 →
          c ≤ 1e300 → |g| ≤ 1e150 →
          ∃ neuron', adadelta Real.sqrt nets ni value g neuron wi
            = some (value
                + Real.sqrt ((a + 1e-6) / (net.rho * c + (1 - net.rho) * g ^ 2 + 1e-6)) * g,
                neuron')
          ∧ cacheSlot neuron' wi = some (net.rho * c + (1 - net.rho) * g ^ 2)
          ∧ 0 < net.rho * c + (1 - net.rho) * g ^ 2 + 1e-6) := by
  refine ⟨?_, ?_, ?_, ?_⟩
  · have hx : 0 ≤ c + g ^ 2 := add_nonneg hc0 (sq_nonneg g)
    exact ⟨_, _, adagrad_eq Real.sqrt value g hnet hc, cacheSlot_after _ hc,
      (cacheDivisor_pos hx).1, (cacheDivisor_pos hx).2⟩
  · intro h0 h1 _ _
    have hx := decayed_cache_bounds (g := g) h0 h1 hc0
    exact ⟨_, _, rmsprop_eq Real.sqrt value g hnet hc, cacheSlot_after _ hc,
      (cacheDivisor_pos hx).1, (cacheDivisor_pos hx).2⟩
  · intro ht hmax hv
    have h9 : 0 < 1 - (0.9 : ℝ) ^ (net.iterations + 1) := by
      rw [zpow_succ_eq_pow _ ht]
      exact one_sub_pow_pos (by norm_num) (by norm_num) _
    have h999 : 0 < 1 - (0.999 : ℝ) ^ (net.iterations + 1) := by
      rw [zpow_succ_eq_pow _ ht]
      exact one_sub_pow_pos (by norm_num) (by norm_num) _
    have hv' : 0 ≤ 0.999 * neuron.v + (1 - 0.999) * g ^ 2 := by
      have := sq_nonneg g
      have h1 : (0 : ℝ) ≤ 1 - 0.999 := by norm_num
      have := mul_nonneg h1 (sq_nonneg g)
      have h2 : (0 : ℝ) ≤ 0.999 := by norm_num
      have := mul_nonneg h2 hv
      linarith
    have hx : 0 ≤ (0.999 * neuron.v + (1 - 0.999) * g ^ 2)
        / (1 - (0.999 : ℝ) ^ (net.iterations + 1)) := div_nonneg hv' h999.le
    exact ⟨{ neuron with
        m := 0.9 * neuron.m + (1 - 0.9) * g
        v := 0.999 * neuron.v + (1 - 0.999) * g ^ 2 }, _,
      adam_eq_in_range Real.sqrt value g neuron wi hnet (by omega) hmax,
      h9.ne', h999.ne', (momentDivisor_pos hx).1, (momentDivisor_pos hx).2⟩
  · intro a ha h0 h1 _ _
    have hx := decayed_cache_bounds (g := g) h0 h1 hc0
    have h6 : (0 : ℝ) < 1e-6 := by norm_num
    exact ⟨_, adadelta_eq Real.sqrt value g hnet hc ha, cacheSlot_after_adadelta _ _ hc,
      by linarith⟩

theorem optimizer_divisors_nonzero_witness :
    (∃ neuron' d, adagrad Real.sqrt [⟨0, 1, 0, 0.9, 0.95⟩] 0 1 3
            (⟨[1], [7], [6], 0, 0, 0, 0, 1, 0, 2, 0, 0, false⟩ : Neuron ℝ) 0
          = some (1 + 1 * 3 / d, neuron')
        ∧ cacheSlot neuron' 0 = some (7 + 3 ^ 2)
        ∧ cacheDivisor Real.sqrt (7 + 3 ^ 2 : ℝ) = some d ∧ 0 < d)
      ∧ ((0 : ℝ) ≤ 0.9 → (0.9 : ℝ) ≤ 1 → (7 : ℝ) ≤ 1e300 → |(3 : ℝ)| ≤ 1e150 →
          ∃ neuron' d, rmsprop Real.sqrt [⟨0, 1, 0, 0.9, 0.95⟩] 0 1 3
              (⟨[1], [7], [6], 0, 0, 0, 0, 1, 0, 2, 0, 0, false⟩ : Neuron ℝ) 0
            = some (1 + 1 * 3 / d, neuron')
          ∧ cacheSlot neuron' 0 = some (0.9 * 7 + (1 - 0.9) * 3 ^ 2)
          ∧ cacheDivisor Real.sqrt (0.9 * 7 + (1 - 0.9) * 3 ^ 2 : ℝ) = some d
          ∧ 0 < d)
      ∧ ((0 : Int) ≤ 0 → (0 : Int) < 2147483647 → (0 : ℝ) ≤ 0 →
          ∃ neuron' d, adam Real.sqrt [⟨0, 1, 0, 0.9, 0.95⟩] 0 1 3
              (⟨[1], [7], [6], 0, 0, 0, 0, 1, 0, 2, 0, 0, false⟩ : Neuron ℝ) 0
            = some (1 + 1 * (neuron'.m / (1 - (0.9 : ℝ) ^ ((0 : Int) + 1))) / d, neuron')
          ∧ 1 - (0.9 : ℝ) ^ ((0 : Int) + 1) ≠ 0
          ∧ 1 - (0.999 : ℝ) ^ ((0 : Int) + 1) ≠ 0
          ∧ momentDivisor Real.sqrt (neuron'.v / (1 - (0.999 : ℝ) ^ ((0 : Int) + 1))) = some d
          ∧ d ≠ 0)
      ∧ (∀ a : ℝ, adadeltaSlot
            (⟨[1], [7], [6], 0, 0, 0, 0, 1, 0, 2, 0, 0, false⟩ : Neuron ℝ) 0 = some a →
          (0 : ℝ) ≤ 0.95 → (0.95 : ℝ) ≤ 1 → (7 : ℝ) ≤ 1e300 → |(3 : ℝ)| ≤ 1e150 →
          ∃ neuron', adadelta Real.sqrt [⟨0, 1, 0, 0.9, 0.95⟩] 0 1 3
              (⟨[1], [7], [6], 0, 0, 0, 0, 1, 0, 2, 0, 0, false⟩ : Neuron ℝ) 0
            = some (1 + Real.sqrt ((a + 1e-6) / (0.95 * 7 + (1 - 0.95) * 3 ^ 2 + 1e-6)) * 3,
                neuron')
          ∧ cacheSlot neuron' 0 = some (0.95 * 7 + (1 - 0.95) * 3 ^ 2)
          ∧ (0 : ℝ) < 0.95 * 7 + (1 - 0.95) * 3 ^ 2 + 1e-6) :=
  optimizer_divisors_nonzero [⟨0, 1, 0, 0.9, 0.95⟩] 0 ⟨0, 1, 0, 0.9, 0.95⟩ 1 3
    ⟨[1], [7], [6], 0, 0, 0, 0, 1, 0, 2, 0, 0, false⟩ 0 7 rfl rfl (by norm_num)

/-! ## Frame of the slot-based rules -/

section Frame

variable {α : Type} [LinearOrderedField α]

theorem agreeOff_set (i : Nat) (xs : List α) (x : α) : AgreeOff i xs (xs.set i x) := by
  refine ⟨by simp, ?_⟩
  intro j hj
  rw [List.getElem?_set_ne (Ne.symm hj)]

theorem agreeOff_refl (i : Nat) (xs : List α) : AgreeOff i xs xs :=
  ⟨rfl, fun _ _ => rfl⟩

theorem slotFrame_gain (neuron : Neuron α) (wi : Int) (x : α) :
    SlotFrame wi neuron
      (if wi > -1 then { neuron with weightGain := neuron.weightGain.set wi.toNat x }
        else { neuron with biasGain := x }) := by
  unfold SlotFrame
  by_cases hwi : wi > -1
  · rw [if_pos hwi]
    exact ⟨fun _ => ⟨rfl, rfl, rfl, agreeOff_set _ _ _, agreeOff_refl _ _, agreeOff_refl _ _⟩, fun h => by omega⟩
  · rw [if_neg hwi]
    exact ⟨fun h => absurd h hwi, fun _ => ⟨rfl, rfl, rfl⟩⟩

theorem slotFrame_cache (neuron : Neuron α) (wi : Int) (x : α) :
    SlotFrame wi neuron
      (if wi > -1 then { neuron with weightsCache := neuron.weightsCache.set wi.toNat x }
        else { neuron with biasCache := x }) := by
  unfold SlotFrame
  by_cases hwi : wi > -1
  · rw [if_pos hwi]
    exact ⟨fun _ => ⟨rfl, rfl, rfl, agreeOff_refl _ _, agreeOff_set _ _ _, agreeOff_refl _ _⟩, fun h => by omega⟩
  · rw [if_neg hwi]
    exact ⟨fun h => absurd h hwi, fun _ => ⟨rfl, rfl, rfl⟩⟩

theorem slotFrame_adadelta (neuron : Neuron α) (wi : Int) (x y : α) :
    SlotFrame wi neuron
      (if wi > -1 then
        { neuron with
          weightsCache := neuron.weightsCache.set wi.toNat x
          adadeltaCache := neuron.adadeltaCache.set wi.toNat y }
      else { neuron with biasCache := x, adadeltaBiasCache := y }) := by
  unfold SlotFrame
  by_cases hwi : wi > -1
  · rw [if_pos hwi]
    exact ⟨fun _ => ⟨rfl, rfl, rfl, agreeOff_refl _ _, agreeOff_set _ _ _, agreeOff_set _ _ _⟩, fun h => by omega⟩
  · rw [if_neg hwi]
    exact ⟨fun h => absurd h hwi, fun _ => ⟨rfl, rfl, rfl⟩⟩

end Frame

/-- C15: bias parameters use the scalar slots and weight parameters the per-index slots.  For
each of `gain`, `adagrad`, `rmsprop` and `adadelta`, a call with an in-range `weightIndex`
`i >= 0` leaves every entry `j != i` of `weightGain`, `weightsCache` and `adadeltaCache` and
every scalar bias slot (`biasGain`, `biasCache`, `adadeltaBiasCache`) unchanged, and a call
with `weightIndex < 0` leaves all per-index vectors unchanged; the value returned depends on
the neuron only through the selected slot: any other neuron holding the same content in that
slot gives the same value. -/
theorem update_rules_frame (nets : List (Network ℝ)) (ni : Int) (net : Network ℝ)
    (value dv : ℝ) (neuron : Neuron ℝ) (wi : Int)
    (hnet : Network.getInstance nets ni = some net) :
    (∀ g : ℝ, gainSlot neuron wi = some g →
        ∃ r, gain nets ni value dv neuron wi = some r ∧ SlotFrame wi neuron r.2
          ∧ ∀ other : Neuron ℝ, gainSlot other wi = some g →
              (gain nets ni value dv other wi).map Prod.fst = some r.1)
      ∧ (∀ c : ℝ, cacheSlot neuron wi = some c →
        ∃ r, adagrad Real.sqrt nets ni value dv neuron wi = some r ∧ SlotFrame wi neuron r.2
          ∧ ∀ other : Neuron ℝ, cacheSlot other wi = some c →
              (adagrad Real.sqrt nets ni value dv other wi).map Prod.fst = some r.1)
      ∧ (∀ c : ℝ, cacheSlot neuron wi = some c →
        ∃ r, rmsprop Real.sqrt nets ni value dv neuron wi = some r ∧ SlotFrame wi neuron r.2
          ∧ ∀ other : Neuron ℝ, cacheSlot other wi = some c →
              (rmsprop Real.sqrt nets ni value dv other wi).map Prod.fst = some r.1)
      ∧ (∀ c a : ℝ, cacheSlot neuron wi = some c → adadeltaSlot neuron wi = some a →
        ∃ r, adadelta Real.sqrt nets ni value dv neuron wi = some r ∧ SlotFrame wi neuron r.2
          ∧ ∀ other : Neuron ℝ, cacheSlot other wi = some c → adadeltaSlot other wi = some a →
              (adadelta Real.sqrt nets ni value dv other wi).map Prod.fst = some r.1) := by
  refine ⟨fun g hg => ⟨_, gain_eq value dv hnet hg, slotFrame_gain _ _ _, ?_⟩,
    fun c hc => ⟨_, adagrad_eq Real.sqrt value dv hnet hc, slotFrame_cache _ _ _, ?_⟩,
    fun c hc => ⟨_, rmsprop_eq Real.sqrt value dv hnet hc, slotFrame_cache _ _ _, ?_⟩,
    fun c a hc ha =>
      ⟨_, adadelta_eq Real.sqrt value dv hnet hc ha, slotFrame_adadelta _ _ _ _, ?_⟩⟩
  · intro other ho
    rw [gain_eq value dv hnet ho]; rfl
  · intro other ho
    rw [adagrad_eq Real.sqrt value dv hnet ho]; rfl
  · intro other ho
    rw [rmsprop_eq Real.sqrt value dv hnet ho]; rfl
  · intro other ho ho'
    rw [adadelta_eq Real.sqrt value dv hnet ho ho']; rfl

theorem update_rules_frame_witness :
    (∀ g : ℝ, gainSlot
          (⟨[1, 2], [7, 8], [6, 9], 0, 0, 0, 0, 1, 0, 2, 0, 0, false⟩ : Neuron ℝ) 1 = some g →
        ∃ r, gain [⟨0, 1, 0, 0.9, 0.95⟩] 0 1 3
            (⟨[1, 2], [7, 8], [6, 9], 0, 0, 0, 0, 1, 0, 2, 0, 0, false⟩ : Neuron ℝ) 1 = some r
          ∧ SlotFrame 1
            (⟨[1, 2], [7, 8], [6, 9], 0, 0, 0, 0, 1, 0, 2, 0, 0, false⟩ : Neuron ℝ) r.2
          ∧ ∀ other : Neuron ℝ, gainSlot other 1 = some g →
              (gain [⟨0, 1, 0, 0.9, 0.95⟩] 0 1 3 other 1).map Prod.fst = some r.1)
      ∧ (∀ c : ℝ, cacheSlot
          (⟨[1, 2], [7, 8], [6, 9], 0, 0, 0, 0, 1, 0, 2, 0, 0, false⟩ : Neuron ℝ) 1 = some c →
        ∃ r, adagrad Real.sqrt [⟨0, 1, 0, 0.9, 0.95⟩] 0 1 3
            (⟨[1, 2], [7, 8], [6, 9], 0, 0, 0, 0, 1, 0, 2, 0, 0, false⟩ : Neuron ℝ) 1 = some r
          ∧ SlotFrame 1
            (⟨[1, 2], [7, 8], [6, 9], 0, 0, 0, 0, 1, 0, 2, 0, 0, false⟩ : Neuron ℝ) r.2
          ∧ ∀ other : Neuron ℝ, cacheSlot other 1 = some c →
              (adagrad Real.sqrt [⟨0, 1, 0, 0.9, 0.95⟩] 0 1 3 other 1).map Prod.fst
                = some r.1)
      ∧ (∀ c : ℝ, cacheSlot
          (⟨[1, 2], [7, 8], [6, 9], 0, 0, 0, 0, 1, 0, 2, 0, 0, false⟩ : Neuron ℝ) 1 = some c →
        ∃ r, rmsprop Real.sqrt [⟨0, 1, 0, 0.9, 0.95⟩] 0 1 3
            (⟨[1, 2], [7, 8], [6, 9], 0, 0, 0, 0, 1, 0, 2, 0, 0, false⟩ : Neuron ℝ) 1 = some r
          ∧ SlotFrame 1
            (⟨[1, 2], [7, 8], [6, 9], 0, 0, 0, 0, 1, 0, 2, 0, 0, false⟩ : Neuron ℝ) r.2
          ∧ ∀ other : Neuron ℝ, cacheSlot other 1 = some c →
              (rmsprop Real.sqrt [⟨0, 1, 0, 0.9, 0.95⟩] 0 1 3 other 1).map Prod.fst
                = some r.1)
      ∧ (∀ c a : ℝ, cacheSlot
          (⟨[1, 2], [7, 8], [6, 9], 0, 0, 0, 0, 1, 0, 2, 0, 0, false⟩ : Neuron ℝ) 1 = some c →
        adadeltaSlot
          (⟨[1, 2], [7, 8], [6, 9], 0, 0, 0, 0, 1, 0, 2, 0, 0, false⟩ : Neuron ℝ) 1 = some a →
        ∃ r, adadelta Real.sqrt [⟨0, 1, 0, 0.9, 0.95⟩] 0 1 3
            (⟨[1, 2], [7, 8], [6, 9], 0, 0, 0, 0, 1, 0, 2, 0, 0, false⟩ : Neuron ℝ) 1 = some r
          ∧ SlotFrame 1
            (⟨[1, 2], [7, 8], [6, 9], 0, 0, 0, 0, 1, 0, 2, 0, 0, false⟩ : Neuron ℝ) r.2
          ∧ ∀ other : Neuron ℝ, cacheSlot other 1 = some c → adadeltaSlot other 1 = some a →
              (adadelta Real.sqrt [⟨0, 1, 0, 0.9, 0.95⟩] 0 1 3 other 1).map Prod.fst
                = some r.1) :=
  update_rules_frame [⟨0, 1, 0, 0.9, 0.95⟩] 0 ⟨0, 1, 0, 0.9, 0.95⟩ 1 3
    ⟨[1, 2], [7, 8], [6, 9], 0, 0, 0, 0, 1, 0, 2, 0, 0, false⟩ 1 rfl

/-! ## Adam's moments -/

/-- C16, as stated, fails: the moments are the neuron's scalars `m` and `v`, shared by all its
parameters.  With `m = v = 0`, iteration counter `0` and learning rate `1`, an update of weight
`0` with gradient `1` leaves `m = 0.1`, and the following update of weight `1` with gradient
`0` then moves the value `0` to a positive value, whereas without the earlier update it
returns `0`. -/
theorem adam_shared_moments_counterexample :
    ∃ r, adam Real.sqrt [⟨0, 1, 0, 0, 0⟩] 0 0 1
          (⟨[1, 1], [0, 0], [0, 0], 0, 0, 0, 0, 1, 0, 0, 0, 0, false⟩ : Neuron ℝ) 0 = some r
      ∧ r.2.m ≠ 0
      ∧ (adam Real.sqrt [⟨0, 1, 0, 0, 0⟩] 0 0 0
          (⟨[1, 1], [0, 0], [0, 0], 0, 0, 0, 0, 1, 0, 0, 0, 0, false⟩ : Neuron ℝ) 1).map Prod.fst
          = some 0
      ∧ ∃ x, (adam Real.sqrt [⟨0, 1, 0, 0, 0⟩] 0 0 0 r.2 1).map Prod.fst = some x ∧ 0 < x := by
  have hnet : Network.getInstance ([⟨0, 1, 0, 0, 0⟩] : List (Network ℝ)) 0
      = some ⟨0, 1, 0, 0, 0⟩ := rfl
  refine ⟨_, adam_eq_in_range Real.sqrt 0 1 _ 0 hnet (by decide) (by decide), ?_, ?_, ?_⟩
  · norm_num
  · rw [adam_eq_in_range Real.sqrt 0 0 _ 1 hnet (by decide) (by decide)]
    norm_num
  · rw [adam_eq_in_range Real.sqrt 0 0 _ 1 hnet (by decide) (by decide)]
    refine ⟨_, rfl, ?_⟩
    have hs := eps_add_sqrt_pos
      ((0.999 * (0.999 * 0 + (1 - 0.999) * (1 : ℝ) ^ 2) + (1 - 0.999) * (0 : ℝ) ^ 2)
        / (1 - (0.999 : ℝ) ^ ((0 : Int) + 1)))
    rw [add_comm] at hs
    have hm : (0 : ℝ) < (1 : ℝ)
        * ((0.9 * (0.9 * 0 + (1 - 0.9) * 1) + (1 - 0.9) * 0) / (1 - (0.9 : ℝ) ^ ((0 : Int) + 1))) := by
      norm_num
    simpa using div_pos hm hs

/-- C16, amended: Adam's moments are per-neuron state shared by all parameters of the neuron.
`adam` does not read `weightIndex`: for every neuron state it returns the same value and
leaves the same neuron for every `weightIndex`, and the neuron it leaves is the given one with
only the scalars `m` and `v` replaced, by `0.9 * m + 0.1 * g` and `0.999 * v + 0.001 * g^2`;
the next `adam` call on the neuron starts from these, whichever parameter it updates. -/
theorem adam_moments_per_neuron (nets : List (Network ℝ)) (ni : Int) (net : Network ℝ)
    (value g : ℝ) (neuron : Neuron ℝ) (wi wj : Int)
    (hnet : Network.getInstance nets ni = some net) :
    adam Real.sqrt nets ni value g neuron wi = adam Real.sqrt nets ni value g neuron wj
      ∧ ∃ r, adam Real.sqrt nets ni value g neuron wi = some r
          ∧ r.2 = { neuron with
              m := 0.9 * neuron.m + 0.1 * g
              v := 0.999 * neuron.v + 0.001 * g ^ 2 } := by
  refine ⟨rfl, _, adam_eq Real.sqrt value g neuron wi hnet, ?_⟩
  norm_num

theorem adam_moments_per_neuron_witness :
    adam Real.sqrt [⟨0, 1, 0, 0, 0⟩] 0 1 3
          (⟨[1, 1], [0, 0], [0, 0], 0, 0, 0, 0, 1, 0, 0, 4, 5, false⟩ : Neuron ℝ) 0
        = adam Real.sqrt [⟨0, 1, 0, 0, 0⟩] 0 1 3
          (⟨[1, 1], [0, 0], [0, 0], 0, 0, 0, 0, 1, 0, 0, 4, 5, false⟩ : Neuron ℝ) (-1)
      ∧ ∃ r, adam Real.sqrt [⟨0, 1, 0, 0, 0⟩] 0 1 3
            (⟨[1, 1], [0, 0], [0, 0], 0, 0, 0, 0, 1, 0, 0, 4, 5, false⟩ : Neuron ℝ) 0 = some r
          ∧ r.2 = { (⟨[1, 1], [0, 0], [0, 0], 0, 0, 0, 0, 1, 0, 0, 4, 5, false⟩ : Neuron ℝ) with
              m := 0.9 * 4 + 0.1 * 3
              v := 0.999 * 5 + 0.001 * 3 ^ 2 } :=
  adam_moments_per_neuron [⟨0, 1, 0, 0, 0⟩] 0 ⟨0, 1, 0, 0, 0⟩ 1 3
    ⟨[1, 1], [0, 0], [0, 0], 0, 0, 0, 0, 1, 0, 0, 4, 5, false⟩ 0 (-1) rfl

/-! ## Argument order of the cross-entropy -/

/-- C17, as stated, fails: `crossentropy` takes the guarded logarithm of its second argument.
Called as `crossentropy(calculated, desired)` with `calculated = [0.5]` and `desired = [1]` it
returns `-(0.5 * log(1 + 1e-15) + 0.5 * log(1e-15))`, the logarithm taken of the desired value,
and not `-(1 * log(0.5 + 1e-15) + 0 * log(1 + 1e-15 - 0.5))`. -/
theorem crossentropy_order_counterexample :
    crossentropy Real.log ([0.5] : List ℝ) [1]
        = some (0 - (0.5 * Real.log (1 + 1e-15) + (1 - 0.5) * Real.log (1 + 1e-15 - 1)))
      ∧ crossentropy Real.log ([0.5] : List ℝ) [1]
        ≠ some (-(1 * Real.log (0.5 + 1e-15) + (1 - 1) * Real.log (1 + 1e-15 - 0.5))) := by
  have hval : crossentropy Real.log ([0.5] : List ℝ) [1]
      = some (0 - (0.5 * Real.log (1 + 1e-15) + (1 - 0.5) * Real.log (1 + 1e-15 - 1))) := rfl
  refine ⟨hval, ?_⟩
  rw [hval]
  intro h
  have h := Option.some.inj h
  have e1 : (1 : ℝ) + 1e-15 - 1 = 1e-15 := by norm_num
  rw [e1] at h
  have h1 : Real.log (1 + 1e-15) + Real.log (1e-15)
      = Real.log ((1 + 1e-15) * 1e-15) :=
    (Real.log_mul (by norm_num) (by norm_num)).symm
  have h2 : 2 * Real.log (0.5 + 1e-15) = Real.log ((0.5 + 1e-15) ^ 2) := by
    rw [Real.log_pow]
    norm_num
  have h3 : Real.log ((1 + 1e-15) * 1e-15) < Real.log ((0.5 + 1e-15) ^ 2) :=
    Real.log_lt_log (by norm_num) (by norm_num)
  have e2 : (1 : ℝ) - 0.5 = 0.5 := by norm_num
  rw [e2] at h
  have e3 : (0.5 : ℝ) = 1 / 2 := by norm_num
  rw [e3] at h h2 h3
  linarith

/-- C17, amended: `crossentropy` takes its arguments in the order `(target, output)`.  For
equal-length vectors it returns `-sum over v of [ target[v] * log(output[v] + 1e-15)
+ (1 - target[v]) * log(1 + 1e-15 - output[v]) ]`: the guarded logarithm is taken of the
second argument and the first argument supplies the weights. -/
theorem crossentropy_eq (target output : List ℝ) (hlen : target.length = output.length) :
    crossentropy Real.log target output
      = some (-(List.zipWith
          (fun t o => t * Real.log (o + 1e-15) + (1 - t) * Real.log (1 + 1e-15 - o))
          target output).sum) := by
  unfold crossentropy
  rw [crossentropyLoop_eq Real.log target output 0 hlen, zero_sub]

theorem crossentropy_eq_witness :
    crossentropy Real.log ([1, 0] : List ℝ) [0.75, 0.25]
      = some (-(List.zipWith
          (fun t o => t * Real.log (o + 1e-15) + (1 - t) * Real.log (1 + 1e-15 - o))
          ([1, 0] : List ℝ) [0.75, 0.25]).sum) :=
  crossentropy_eq [1, 0] [0.75, 0.25] rfl

/-! ## First step of Adam, range of the sigmoid, idempotence of softmax -/

/-- The value `adam` returns, in exact arithmetic, when the moments are zero and the iteration
counter is `0`. -/
theorem adam_zero_moments_eq {nets : List (Network ℝ)} {ni : Int} {net : Network ℝ}
    (value g : ℝ) {neuron : Neuron ℝ} (wi : Int)
    (hnet : Network.getInstance nets ni = some net)
    (hm : neuron.m = 0) (hv : neuron.v = 0) (hit : net.iterations = 0) :
    (adam Real.sqrt nets ni value g neuron wi).map Prod.fst
      = some (value + net.learningRate * g / (|g| + 1e-6)) := by
  rw [adam_eq_in_range Real.sqrt value g neuron wi hnet (by omega) (by omega), hm, hv, hit]
  have e1 : (0.9 * 0 + (1 - 0.9) * g) / (1 - (0.9 : ℝ) ^ ((0 : Int) + 1)) = g := by
    norm_num
  have e2 : (0.999 * 0 + (1 - 0.999) * g ^ 2) / (1 - (0.999 : ℝ) ^ ((0 : Int) + 1))
      = g ^ 2 := by
    norm_num
  simp only [Option.map_some', e1, e2, Real.sqrt_sq_eq_abs]

/-- C18, as stated, fails for a learning rate that is not positive: with `learningRate = 0`
(the value the header initialises it to), zero moments, iteration counter `0` and gradient `1`
the value `5` is returned unchanged, and the magnitude `0` of the step is not strictly less
than the learning rate `0`. -/
theorem adam_first_step_counterexample :
    (adam Real.sqrt [⟨0, 0, 0, 0, 0⟩] 0 5 1
        (⟨[1], [0], [0], 0, 0, 0, 0, 1, 0, 0, 0, 0, false⟩ : Neuron ℝ) 0).map Prod.fst
        = some (5 + 0 * 1 / (|1| + 1e-6))
      ∧ ¬ (|(0 : ℝ) * 1 / (|1| + 1e-6)| < 0) := by
  have hnet : Network.getInstance ([⟨0, 0, 0, 0, 0⟩] : List (Network ℝ)) 0
      = some ⟨0, 0, 0, 0, 0⟩ := rfl
  refine ⟨?_, not_lt.mpr (abs_nonneg _)⟩
  simpa using adam_zero_moments_eq 5 1 0 hnet rfl rfl rfl

/-- C18, amended: on the first step, with moments `m = v = 0` and iteration counter `0`, `adam`
stores `m = (1 - 0.9) * g` and `v = (1 - 0.999) * g^2` and returns
`value + learningRate * mhat / (sqrt vhat + 1e-6)` with `mhat = m / (1 - 0.9^1)` and
`vhat = v / (1 - 0.999^1)`, for every value, learning rate and gradient `g`; for `g = 0` the
value is returned unchanged. -/
theorem adam_first_step (nets : List (Network ℝ)) (ni : Int) (net : Network ℝ)
    (value g : ℝ) (neuron : Neuron ℝ) (wi : Int)
    (hnet : Network.getInstance nets ni = some net)
    (hm : neuron.m = 0) (hv : neuron.v = 0) (hit : net.iterations = 0) :
    (∃ neuron', adam Real.sqrt nets ni value g neuron wi
          = some (value + net.learningRate * (neuron'.m / (1 - (0.9 : ℝ) ^ 1))
              / (Real.sqrt (neuron'.v / (1 - (0.999 : ℝ) ^ 1)) + 1e-6), neuron')
        ∧ neuron'.m = (1 - 0.9) * g ∧ neuron'.v = (1 - 0.999) * g ^ 2)
      ∧ (g = 0 → (adam Real.sqrt nets ni value g neuron wi).map Prod.fst = some value) := by
  have h := adam_eq_in_range Real.sqrt value g neuron wi hnet (by omega) (by omega)
  rw [hm, hv, hit] at h
  refine ⟨⟨{ neuron with m := (1 - 0.9) * g, v := (1 - 0.999) * g ^ 2 }, ?_, rfl, rfl⟩, ?_⟩
  · rw [h]
    norm_num
  · intro hg
    rw [h, hg]
    norm_num

theorem adam_first_step_witness :
    (∃ neuron', adam Real.sqrt [⟨0, 0.5, 0, 0, 0⟩] 0 5 (-3)
          (⟨[1], [0], [0], 0, 0, 0, 0, 1, 0, 0, 0, 0, false⟩ : Neuron ℝ) 0
          = some (5 + 0.5 * (neuron'.m / (1 - (0.9 : ℝ) ^ 1))
              / (Real.sqrt (neuron'.v / (1 - (0.999 : ℝ) ^ 1)) + 1e-6), neuron')
        ∧ neuron'.m = (1 - 0.9) * (-3) ∧ neuron'.v = (1 - 0.999) * (-3) ^ 2)
      ∧ ((-3 : ℝ) = 0 →
          (adam Real.sqrt [⟨0, 0.5, 0, 0, 0⟩] 0 5 (-3)
            (⟨[1], [0], [0], 0, 0, 0, 0, 1, 0, 0, 0, 0, false⟩ : Neuron ℝ) 0).map Prod.fst
            = some 5) :=
  adam_first_step [⟨0, 0.5, 0, 0, 0⟩] 0 ⟨0, 0.5, 0, 0, 0⟩ 5 (-3)
    ⟨[1], [0], [0], 0, 0, 0, 0, 1, 0, 0, 0, 0, false⟩ 0 rfl rfl rfl rfl

/-- C19, as stated, fails in double arithmetic, with `exp` returning the double nearest to the
exponential.  At `x = 40` the sum `1 + exp(-40)` is rounded to `1`, so `sigmoid(40)` is exactly
`1` and `sigmoid(40, prime=true)` is exactly `0`; and at `x = 2^-60`, which is not `0`,
`exp(-x)` is `1` and `sigmoid(x, prime=true)` is exactly `1/4`. -/
theorem sigmoid_range_counterexample :
    sigmoidRounded roundDouble (fun y => roundDouble (Real.exp y)) 40 false
        ⟨[], [], [], 0, 0, 0, 0, 0, 0, 0, 0, 0, false⟩ = 1
      ∧ sigmoidRounded roundDouble (fun y => roundDouble (Real.exp y)) 40 true
        ⟨[], [], [], 0, 0, 0, 0, 0, 0, 0, 0, 0, false⟩ = 0
      ∧ (2 : ℝ) ^ (-60 : Int) ≠ 0
      ∧ sigmoidRounded roundDouble (fun y => roundDouble (Real.exp y)) (2 ^ (-60 : Int)) true
        ⟨[], [], [], 0, 0, 0, 0, 0, 0, 0, 0, 0, false⟩ = 1 / 4 := by
  refine ⟨?_, ?_, (zpow_pos (by norm_num) _).ne', ?_⟩
  · simp only [sigmoidRounded, Bool.false_eq_true, if_false]
    rw [roundDouble_one_add_exp, div_one, roundDouble_one]
  · simp only [sigmoidRounded, if_true]
    rw [roundDouble_one_add_exp, div_one, roundDouble_one, sub_self, roundDouble_zero,
      mul_zero, roundDouble_zero]
  · simp only [sigmoidRounded, if_true]
    rw [roundDouble_exp_tiny, show (1 : ℝ) + 1 = 2 by norm_num, roundDouble_two,
      roundDouble_half, show (1 : ℝ) - 1 / 2 = 1 / 2 by norm_num, roundDouble_half,
      show (1 / 2 : ℝ) * (1 / 2) = 1 / 4 by norm_num, roundDouble_quarter]

/-- C19, amended: in double arithmetic, for every `x` and every library `exp` whose result is
never negative and is `1` at `0`, `sigmoid(x, prime=false)` lies in `[0, 1]` and
`sigmoid(x, prime=true)` lies in `[0, 1/4]`; at `x = 0` the value is exactly `1/2` and the
derivative exactly `1/4`. -/
theorem sigmoid_range (exp : ℝ → ℝ) (hexp : ∀ y, 0 ≤ exp y) (hexp0 : exp 0 = 1) (x : ℝ)
    (neuron : Neuron ℝ) :
    (0 ≤ sigmoidRounded roundDouble exp x false neuron
        ∧ sigmoidRounded roundDouble exp x false neuron ≤ 1)
      ∧ (0 ≤ sigmoidRounded roundDouble exp x true neuron
        ∧ sigmoidRounded roundDouble exp x true neuron ≤ 1 / 4)
      ∧ sigmoidRounded roundDouble exp 0 false neuron = 1 / 2
      ∧ sigmoidRounded roundDouble exp 0 true neuron = 1 / 4 := by
  have hd : 1 ≤ roundDouble (1 + exp (-x)) := one_le_roundDouble (by linarith [hexp (-x)])
  have hq0 : 0 ≤ 1 / roundDouble (1 + exp (-x)) := by
    apply div_nonneg <;> linarith
  have hq1 : 1 / roundDouble (1 + exp (-x)) ≤ 1 := by
    rw [div_le_one (by linarith)]
    exact hd
  have hv0 : 0 ≤ roundDouble (1 / roundDouble (1 + exp (-x))) := roundDouble_nonneg hq0
  have hv1 : roundDouble (1 / roundDouble (1 + exp (-x))) ≤ 1 := roundDouble_le_one hq0 hq1
  simp only [sigmoidRounded, if_true, Bool.false_eq_true, if_false]
  refine ⟨⟨hv0, hv1⟩, ⟨?_, roundDouble_mul_complement_le hv0 hv1⟩, ?_, ?_⟩
  · exact roundDouble_nonneg (mul_nonneg hv0 (roundDouble_nonneg (by linarith)))
  · rw [neg_zero, hexp0, show (1 : ℝ) + 1 = 2 by norm_num, roundDouble_two, roundDouble_half]
  · rw [neg_zero, hexp0, show (1 : ℝ) + 1 = 2 by norm_num, roundDouble_two, roundDouble_half,
      show (1 : ℝ) - 1 / 2 = 1 / 2 by norm_num, roundDouble_half,
      show (1 / 2 : ℝ) * (1 / 2) = 1 / 4 by norm_num, roundDouble_quarter]

theorem sigmoid_range_witness :
    (0 ≤ sigmoidRounded roundDouble (fun y => roundDouble (Real.exp y)) 40 false
          ⟨[], [], [], 0, 0, 0, 0, 0, 0, 0, 0, 0, false⟩
        ∧ sigmoidRounded roundDouble (fun y => roundDouble (Real.exp y)) 40 false
          ⟨[], [], [], 0, 0, 0, 0, 0, 0, 0, 0, 0, false⟩ ≤ 1)
      ∧ (0 ≤ sigmoidRounded roundDouble (fun y => roundDouble (Real.exp y)) 40 true
          ⟨[], [], [], 0, 0, 0, 0, 0, 0, 0, 0, 0, false⟩
        ∧ sigmoidRounded roundDouble (fun y => roundDouble (Real.exp y)) 40 true
          ⟨[], [], [], 0, 0, 0, 0, 0, 0, 0, 0, 0, false⟩ ≤ 1 / 4)
      ∧ sigmoidRounded roundDouble (fun y => roundDouble (Real.exp y)) 0 false
          ⟨[], [], [], 0, 0, 0, 0, 0, 0, 0, 0, 0, false⟩ = 1 / 2
      ∧ sigmoidRounded roundDouble (fun y => roundDouble (Real.exp y)) 0 true
          ⟨[], [], [], 0, 0, 0, 0, 0, 0, 0, 0, 0, false⟩ = 1 / 4 :=
  sigmoid_range (fun y => roundDouble (Real.exp y))
    (fun y => roundDouble_nonneg (Real.exp_pos y).le)
    (by simp only [Real.exp_zero, roundDouble_one]) 40
    ⟨[], [], [], 0, 0, 0, 0, 0, 0, 0, 0, 0, false⟩

/-- C20, as stated, fails in double arithmetic: for `[1, 4, 1]` the total is `6` and `softmax`
returns the doubles nearest to `1/6`, `2/3`, `1/6`; their accumulated total is `1 - 2^-53`, not
`1`, and the second application returns the next doubles up, so
`softmax(softmax(v)) ≠ softmax(v)`. -/
theorem softmax_idempotent_counterexample :
    softmax roundDouble ([1, 4, 1] : List ℝ)
        = [6004799503160661 / 36028797018963968, 6004799503160661 / 9007199254740992,
            6004799503160661 / 36028797018963968]
      ∧ softmaxTotal roundDouble (softmax roundDouble ([1, 4, 1] : List ℝ))
        = 9007199254740991 / 9007199254740992
      ∧ softmax roundDouble (softmax roundDouble ([1, 4, 1] : List ℝ))
        = [3002399751580331 / 18014398509481984, 3002399751580331 / 4503599627370496,
            3002399751580331 / 18014398509481984]
      ∧ softmax roundDouble (softmax roundDouble ([1, 4, 1] : List ℝ))
        ≠ softmax roundDouble ([1, 4, 1] : List ℝ) := by
  refine ⟨softmax_one_four_one, ?_, ?_, ?_⟩
  · rw [softmax_one_four_one, softmaxTotal_thirds]
  · rw [softmax_one_four_one, softmax_thirds]
  · rw [softmax_one_four_one, softmax_thirds]
    norm_num

/-- C20, amended: `softmax` is length-preserving and idempotent up to rounding.  For every
vector `v`, `softmax(v)` and `softmax(softmax(v))` have the length of `v`; when the total that
the first loop accumulates is nonzero each entry is the rounded `v[i] / total`, and when it is
zero the vector is returned unchanged; `softmax(softmax(v)) = softmax(v)` whenever the total
accumulated over `softmax(v)` is exactly `0` or `1`; and for `v` of at most `2^20` doubles,
each `0` or within `[2^-400, 2^400]`, every entry of `softmax(softmax(v))` differs from the
entry of `softmax(v)` by at most `(n + 1) * 2^-51` times that entry.  Every operation is
rounded as a `double` operation; the bounds on the entries and on the length keep every
intermediate result within the normal doubles. -/
theorem softmax_nearly_idempotent (v : List ℝ) :
    (softmax roundDouble v).length = v.length
      ∧ (softmax roundDouble (softmax roundDouble v)).length = v.length
      ∧ (softmaxTotal roundDouble v ≠ 0 →
          softmax roundDouble v
            = v.map (fun x => roundDouble (x / softmaxTotal roundDouble v)))
      ∧ (softmaxTotal roundDouble v = 0 → softmax roundDouble v = v)
      ∧ (softmaxTotal roundDouble (softmax roundDouble v) = 0
            ∨ softmaxTotal roundDouble (softmax roundDouble v) = 1 →
          softmax roundDouble (softmax roundDouble v) = softmax roundDouble v)
      ∧ (v.length ≤ 1048576 → (∀ x ∈ v, roundDouble x = x) →
          (∀ x ∈ v, x = 0 ∨ ((2 : ℝ) ^ (-400 : Int) ≤ x ∧ x ≤ (2 : ℝ) ^ (400 : Int))) →
          List.Forall₂ (fun y z => |z - y| ≤ ((v.length : ℝ) + 1) * 2 ^ (-51 : Int) * y)
            (softmax roundDouble v) (softmax roundDouble (softmax roundDouble v))) := by
  have hlen : ∀ w : List ℝ, (softmax roundDouble w).length = w.length := by
    intro w
    by_cases h : softmaxTotal roundDouble w = 0
    · rw [softmax_eq_of_total_zero roundDouble w h]
    · rw [softmax_eq_of_total_ne_zero roundDouble w h, List.length_map]
  refine ⟨hlen v, by rw [hlen, hlen], softmax_eq_of_total_ne_zero roundDouble v,
    softmax_eq_of_total_zero roundDouble v, ?_, ?_⟩
  · rintro (h | h)
    · exact softmax_eq_of_total_zero roundDouble _ h
    · by_cases hT : softmaxTotal roundDouble v = 0
      · rw [softmax_eq_of_total_zero roundDouble v hT]
        exact softmax_eq_of_total_zero roundDouble v hT
      · rw [softmax_eq_of_total_ne_zero roundDouble _ (by rw [h]; exact one_ne_zero), h]
        rw [softmax_eq_of_total_ne_zero roundDouble v hT, List.map_map]
        apply List.map_congr_left
        intro x hx
        simp only [Function.comp, div_one, roundDouble_idem]
  · intro hn hdbl hrange
    have hnn : ∀ x ∈ v, 0 ≤ x := nonneg_of_range hrange
    have e51 : ((v.length : ℝ) + 1) * 2 ^ (-51 : Int)
        = 4 * ((v.length : ℝ) * 2 ^ (-53 : Int) + 2 ^ (-53 : Int)) := by
      have : (2 : ℝ) ^ (-51 : Int) = 4 * 2 ^ (-53 : Int) := by norm_num
      rw [this]
      ring
    rw [e51]
    rcases (List.sum_nonneg hnn).eq_or_lt with hS | hS
    · have hz : ∀ x ∈ v, x = 0 := fun x hx =>
        le_antisymm (hS ▸ List.single_le_sum hnn x hx) (hnn x hx)
      have hT : softmaxTotal roundDouble v = 0 := by
        obtain ⟨t1, t2⟩ := softmaxTotal_bounds v hnn
        rw [← hS] at t1 t2
        simp only [mul_zero] at t1 t2
        exact le_antisymm t2 t1
      rw [softmax_eq_of_total_zero roundDouble v hT, softmax_eq_of_total_zero roundDouble v hT,
        List.forall₂_same]
      intro x hx
      rw [hz x hx]
      simp
    · obtain ⟨hT2, hb⟩ := softmax_twice_round_bounds v hnn hS hn
      rw [softmax_eq_of_total_ne_zero roundDouble (softmax roundDouble v) hT2.ne',
        List.forall₂_map_right_iff, List.forall₂_same]
      exact hb

theorem softmax_nearly_idempotent_witness :
    (softmax roundDouble ([1, 4, 1] : List ℝ)).length = 3
      ∧ (softmax roundDouble (softmax roundDouble ([1, 4, 1] : List ℝ))).length = 3
      ∧ List.Forall₂ (fun y z => |z - y| ≤ ((3 : ℝ) + 1) * 2 ^ (-51 : Int) * y)
          (softmax roundDouble ([1, 4, 1] : List ℝ))
          (softmax roundDouble (softmax roundDouble ([1, 4, 1] : List ℝ))) := by
  have h := softmax_nearly_idempotent [1, 4, 1]
  refine ⟨h.1, h.2.1, ?_⟩
  have h6 := h.2.2.2.2.2 (by simp)
    (by
      intro x hx
      simp only [List.mem_cons, List.mem_singleton, List.not_mem_nil, or_false] at hx
      rcases hx with rfl | rfl | rfl
      · exact roundDouble_one
      · exact roundDouble_four
      · exact roundDouble_one)
    (by
      intro x hx
      simp only [List.mem_cons, List.mem_singleton, List.not_mem_nil, or_false] at hx
      rcases hx with rfl | rfl | rfl <;> right <;> norm_num)
  simpa using h6

end NetMath

end JsNet
